import Mathlib

/-!
Verification of the holiday-countdown refresh routine of `src/main.py`
(`HolidayFetcher`): the data model (JSON values, cache files keyed by year),
the refresh algorithm (`run`), fetch-and-cache (`_fetch_and_cache`),
cache loading (`_load_cache`) and stale-cache cleanup (`_cleanup_old_cache`)
are embedded shallowly and the specification's claims are settled against
the embedding.

Modelling conventions:
* JSON documents are the inductive `Json` (numbers restricted to integers;
  the holiday payloads contain only strings, booleans, integers, arrays and
  objects).  Serialization `Json.render` mirrors
  `json.dump(data, f, ensure_ascii=False, indent=2)`; parsing `Json.parse`
  mirrors `json.load` on such documents.
* The cache directory is an association list from file name to file content
  (a string).  `os.remove` failures and unreadable files are driven by
  oracles in `Env` (`removeFails`, `readFails`).
* `datetime` instants are integers counting microseconds from the civil
  epoch 1970-01-01; `datetime.strptime(s, "%Y-%m-%d")` is `strptime`, and
  `(date - now).days` is `Int.fdiv (date - now) usPerDay` (Python timedelta
  `.days` floors toward minus infinity).
* Python dynamic-typing effects that the routine can hit (`data += x` for
  non-list `x`, subscripting non-dicts, truthiness of `day["isOffDay"]`)
  are modelled by `pyExtend`, `getItem` and `pyTruthy`, raising `PyErr`
  values that the outer `try` of `HolidayFetcher.run` turns into a
  `fetch_failed` emission (`ROut.failed`).
-/

/- A JSON value, as handled by the plugin's payloads (`Json`), together with
JSON arrays (`JsonArr`) and JSON objects as key/value sequences (`JsonObj`). -/
mutual

inductive Json where
  | null : Json
  | bool (b : Bool) : Json
  | num (n : Int) : Json
  | str (s : String) : Json
  | arr (elems : JsonArr) : Json
  | obj (mems : JsonObj) : Json

inductive JsonArr where
  | nil : JsonArr
  | cons (hd : Json) (tl : JsonArr) : JsonArr

inductive JsonObj where
  | nil : JsonObj
  | cons (k : String) (v : Json) (tl : JsonObj) : JsonObj

end

deriving instance DecidableEq for Json

deriving instance DecidableEq for JsonArr

deriving instance DecidableEq for JsonObj

/-- The elements of a JSON array as a Lean list. -/
def JsonArr.toList : JsonArr → List Json
  | .nil => []
  | .cons x tl => x :: tl.toList

/-- Keys of a JSON object, in source order (Python dict iteration order). -/
def JsonObj.keys : JsonObj → List String
  | .nil => []
  | .cons k _ tl => k :: tl.keys

/-- Lookup in a JSON object where the last binding of a key wins, matching
the dict produced by Python's `json` for duplicate keys. -/
def JsonObj.lookupLast : JsonObj → String → Option Json
  | .nil, _ => none
  | .cons k v tl, key =>
      match tl.lookupLast key with
      | some r => some r
      | none => if k = key then some v else none

/-- Decimal digit character for `n < 10`. -/
def digitChar (n : Nat) : Char :=
  if n < 10 then Char.ofNat (n + 48) else '0'

/-- Lowercase hexadecimal digit character for `n < 16`. -/
def hexDigitChar (n : Nat) : Char :=
  if n < 10 then Char.ofNat (n + 48)
  else if n < 16 then Char.ofNat (n + 87)
  else '0'

/-- Decimal digits of a natural number, most significant first: the
recursive specification (well-founded form, for reasoning). -/
def natDigitsM (n : Nat) : List Char :=
  if n < 10 then [digitChar n]
  else natDigitsM (n / 10) ++ [digitChar (n % 10)]
termination_by n
decreasing_by exact Nat.div_lt_self (by omega) (by omega)

/-- Fueled accumulator form of the decimal digits (structural recursion, so
it evaluates definitionally; `n` itself always bounds the fuel needed). -/
def natDigitsAux : Nat → Nat → List Char → List Char
  | 0, _, acc => acc
  | f + 1, n, acc =>
    if n < 10 then digitChar n :: acc
    else natDigitsAux f (n / 10) (digitChar (n % 10) :: acc)

/-- Decimal digits of a natural number, most significant first
(the digits of Python `str(n)`). -/
def natDigits (n : Nat) : List Char := natDigitsAux (n + 1) n []

/-- Characters of Python `str(n)` for an `int` value. -/
def intChars (n : Int) : List Char :=
  if n < 0 then '-' :: natDigits (-n).toNat else natDigits n.toNat

/-- Python `str(n)` for an `int` value. -/
def intRepr (n : Int) : String := String.mk (intChars n)

/-- The character code of the opening brace. -/
def lbrace : Char := Char.ofNat 123

/-- The character code of the closing brace. -/
def rbrace : Char := Char.ofNat 125

/-- Escape of one character inside a JSON string, as written by Python's
`json.dump` with `ensure_ascii=False`: quote, backslash and control
characters are escaped, everything else is written raw. -/
def escChar (c : Char) : List Char :=
  if c.toNat = 34 then ['\\', '"']
  else if c.toNat = 92 then ['\\', '\\']
  else if c.toNat = 8 then ['\\', 'b']
  else if c.toNat = 9 then ['\\', 't']
  else if c.toNat = 10 then ['\\', 'n']
  else if c.toNat = 12 then ['\\', 'f']
  else if c.toNat = 13 then ['\\', 'r']
  else if c.toNat < 32 then
    ['\\', 'u', '0', '0', hexDigitChar (c.toNat / 16), hexDigitChar (c.toNat % 16)]
  else [c]

/-- Escape of a character sequence inside a JSON string literal. -/
def escList : List Char → List Char
  | [] => []
  | c :: tl => escChar c ++ escList tl

/-- Characters of a JSON string literal (with surrounding quotes). -/
def renderStrChars (s : String) : List Char :=
  '"' :: (escList s.data ++ ['"'])

/-- Newline followed by the indentation for nesting depth `d`
(`json.dump` with `indent=2`). -/
def nlIndent (d : Nat) : List Char :=
  '\n' :: List.replicate (2 * d) ' '

/- Characters written by `json.dump(v, f, ensure_ascii=False, indent=2)`
for a value at nesting depth `d` (mutually with array/object tails). -/
mutual

def Json.renderAt : Json → Nat → List Char
  | .null, _ => ['n', 'u', 'l', 'l']
  | .bool true, _ => ['t', 'r', 'u', 'e']
  | .bool false, _ => ['f', 'a', 'l', 's', 'e']
  | .num n, _ => intChars n
  | .str s, _ => renderStrChars s
  | .arr .nil, _ => ['[', ']']
  | .arr (.cons x tl), d =>
      '[' :: (nlIndent (d + 1) ++ Json.renderAt x (d + 1) ++
        JsonArr.renderTail tl (d + 1) ++ nlIndent d ++ [']'])
  | .obj .nil, _ => [lbrace, rbrace]
  | .obj (.cons k v tl), d =>
      lbrace :: (nlIndent (d + 1) ++ renderStrChars k ++ [':', ' '] ++
        Json.renderAt v (d + 1) ++ JsonObj.renderTail tl (d + 1) ++
        nlIndent d ++ [rbrace])

def JsonArr.renderTail : JsonArr → Nat → List Char
  | .nil, _ => []
  | .cons x tl, d =>
      ',' :: (nlIndent d ++ Json.renderAt x d ++ JsonArr.renderTail tl d)

def JsonObj.renderTail : JsonObj → Nat → List Char
  | .nil, _ => []
  | .cons k v tl, d =>
      ',' :: (nlIndent d ++ renderStrChars k ++ [':', ' '] ++
        Json.renderAt v d ++ JsonObj.renderTail tl d)

end

/-- The exact file content written by `_fetch_and_cache`:
`json.dump(data, f, ensure_ascii=False, indent=2)`. -/
def Json.render (j : Json) : String := String.mk (Json.renderAt j 0)

/-- JSON whitespace accepted between tokens by `json.load`. -/
def jsonWs (c : Char) : Bool :=
  c = ' ' || c = Char.ofNat 9 || c = Char.ofNat 10 || c = Char.ofNat 13

/-- Drop leading JSON whitespace. -/
def skipWs (cs : List Char) : List Char := cs.dropWhile jsonWs

/-- Value of a hexadecimal digit character. -/
def hexVal (c : Char) : Option Nat :=
  if 48 <= c.toNat ∧ c.toNat <= 57 then some (c.toNat - 48)
  else if 97 <= c.toNat ∧ c.toNat <= 102 then some (c.toNat - 87)
  else if 65 <= c.toNat ∧ c.toNat <= 70 then some (c.toNat - 55)
  else none

/-- Single-character JSON escapes (the part after the backslash). -/
def unescape (c : Char) : Option Char :=
  if c = '"' ∨ c = '\\' ∨ c = '/' then some c
  else if c = 'n' then some (Char.ofNat 10)
  else if c = 't' then some (Char.ofNat 9)
  else if c = 'r' then some (Char.ofNat 13)
  else if c = 'b' then some (Char.ofNat 8)
  else if c = 'f' then some (Char.ofNat 12)
  else none

/-- Body of a JSON string literal: consumes characters up to the closing
quote, resolving escapes; returns the decoded characters and the rest. -/
def parseStrBody : List Char → Option (List Char × List Char)
  | [] => none
  | c :: r =>
    if c = '"' then some ([], r)
    else if c = '\\' then
      match r with
      | [] => none
      | e :: r2 =>
        if e = 'u' then
          match r2 with
          | h1 :: h2 :: h3 :: h4 :: r6 =>
            match hexVal h1, hexVal h2, hexVal h3, hexVal h4 with
            | some a, some b, some c2, some d2 =>
              let n := 4096 * a + 256 * b + 16 * c2 + d2
              if n < 55296 || 57344 ≤ n then
                match parseStrBody r6 with
                | some (sl, rest) => some (Char.ofNat n :: sl, rest)
                | none => none
              else none
            | _, _, _, _ => none
          | _ => none
        else
          match unescape e with
          | some u =>
            match parseStrBody r2 with
            | some (sl, rest) => some (u :: sl, rest)
            | none => none
          | none => none
    else
      match parseStrBody r with
      | some (sl, rest) => some (c :: sl, rest)
      | none => none

/-- Numeric value of a decimal digit character. -/
def digitVal (c : Char) : Nat := c.toNat - 48

/-- Value of a nonempty digit sequence, most significant digit first. -/
def digitsVal (ds : List Char) : Nat :=
  ds.foldl (fun a c => 10 * a + digitVal c) 0

/-- Consume a nonempty run of decimal digits and return its value. -/
def parseNatChars (cs : List Char) : Option (Nat × List Char) :=
  match cs.takeWhile Char.isDigit with
  | [] => none
  | ds => some (digitsVal ds, cs.dropWhile Char.isDigit)

/- Fueled recursive-descent JSON parser (the model of `json.load` /
`response.json()` on the documents this plugin handles; numeric literals
are restricted to integers).  `parseVal` parses one value after optional
whitespace; `parseArrRest`/`parseObjRest` continue after an opening
bracket; the `Tail` functions continue after a parsed element. -/
mutual

def parseVal : Nat → List Char → Option (Json × List Char)
  | 0, _ => none
  | f + 1, cs =>
    match skipWs cs with
    | [] => none
    | c :: r =>
      if c = lbrace then parseObjRest f r
      else if c = '[' then parseArrRest f r
      else if c = '"' then
        match parseStrBody r with
        | some (sl, rest) => some (.str (String.mk sl), rest)
        | none => none
      else if c = 't' then
        match r with
        | 'r' :: 'u' :: 'e' :: rest => some (.bool true, rest)
        | _ => none
      else if c = 'f' then
        match r with
        | 'a' :: 'l' :: 's' :: 'e' :: rest => some (.bool false, rest)
        | _ => none
      else if c = 'n' then
        match r with
        | 'u' :: 'l' :: 'l' :: rest => some (.null, rest)
        | _ => none
      else if c = '-' then
        match parseNatChars r with
        | some (n, rest) => some (.num (-(n : Int)), rest)
        | none => none
      else if c.isDigit then
        match parseNatChars (c :: r) with
        | some (n, rest) => some (.num (n : Int), rest)
        | none => none
      else none

def parseArrRest : Nat → List Char → Option (Json × List Char)
  | 0, _ => none
  | f + 1, cs =>
    match skipWs cs with
    | [] => none
    | c :: r1 =>
      if c = ']' then some (.arr .nil, r1)
      else
        match parseVal f cs with
        | some (v, r2) =>
          match parseArrTail f r2 with
          | some (tl, r3) => some (.arr (.cons v tl), r3)
          | none => none
        | none => none

def parseArrTail : Nat → List Char → Option (JsonArr × List Char)
  | 0, _ => none
  | f + 1, cs =>
    match skipWs cs with
    | [] => none
    | c :: r1 =>
      if c = ']' then some (.nil, r1)
      else if c = ',' then
        match parseVal f r1 with
        | some (v, r2) =>
          match parseArrTail f r2 with
          | some (tl, r3) => some (.cons v tl, r3)
          | none => none
        | none => none
      else none

def parseObjRest : Nat → List Char → Option (Json × List Char)
  | 0, _ => none
  | f + 1, cs =>
    match skipWs cs with
    | [] => none
    | c :: rest =>
      if c = rbrace then some (.obj .nil, rest)
      else if c = '"' then
        match parseStrBody rest with
        | some (kl, r1) =>
          match skipWs r1 with
          | ':' :: r2 =>
            match parseVal f r2 with
            | some (v, r3) =>
              match parseObjTail f r3 with
              | some (tl, r4) => some (.obj (.cons (String.mk kl) v tl), r4)
              | none => none
            | none => none
          | _ => none
        | none => none
      else none

def parseObjTail : Nat → List Char → Option (JsonObj × List Char)
  | 0, _ => none
  | f + 1, cs =>
    match skipWs cs with
    | [] => none
    | c :: rest =>
      if c = rbrace then some (.nil, rest)
      else if c = ',' then
        match skipWs rest with
        | [] => none
        | c2 :: r1 =>
          if c2 = '"' then
            match parseStrBody r1 with
            | some (kl, r2) =>
              match skipWs r2 with
              | ':' :: r3 =>
                match parseVal f r3 with
                | some (v, r4) =>
                  match parseObjTail f r4 with
                  | some (tl, r5) => some (.cons (String.mk kl) v tl, r5)
                  | none => none
                | none => none
              | _ => none
            | none => none
          else none
      else none

end

/-- Parse of a whole document, as `json.load`: one value, then only
whitespace may remain.  The fuel `2 * length + 2` dominates the number of
parser steps on any input the parser accepts. -/
def Json.parse (s : String) : Option Json :=
  match parseVal (2 * s.data.length + 2) s.data with
  | some (v, rest) => if skipWs rest = [] then some v else none
  | none => none

/-- Microseconds per day: the resolution of Python `datetime` instants. -/
def usPerDay : Int := 86400000000

/-- Gregorian leap-year rule (as used by `datetime`). -/
def isLeap (y : Nat) : Bool :=
  y % 4 == 0 && (y % 100 != 0 || y % 400 == 0)

/-- Days in a month, used by the `datetime(y, m, d)` validity check. -/
def daysInMonth (y m : Nat) : Nat :=
  if m = 2 then (if isLeap y then 29 else 28)
  else if m = 4 || m = 6 || m = 9 || m = 11 then 30
  else 31

/-- Days from the civil epoch 1970-01-01 to the civil date `y-m-d`
(proleptic Gregorian; the standard days-from-civil computation). -/
def daysFromCivil (y m d : Nat) : Int :=
  let yy : Int := if m ≤ 2 then (y : Int) - 1 else (y : Int)
  let era := Int.fdiv yy 400
  let yoe := yy - era * 400
  let mp : Int := if 2 < m then (m : Int) - 3 else (m : Int) + 9
  let doy := Int.fdiv (153 * mp + 2) 5 + (d : Int) - 1
  let doe := yoe * 365 + Int.fdiv yoe 4 - Int.fdiv yoe 100 + doy
  era * 146097 + doe - 719468

/-- Month field of `strptime`'s format `%m`: the regex `(1[0-2]|0[1-9]|[1-9])`,
alternatives tried in order. -/
def monthParse : List Char → Option (Nat × List Char)
  | c1 :: c2 :: r =>
    if c1 = '1' && ('0' ≤ c2 && c2 ≤ '2') then some (10 + digitVal c2, r)
    else if c1 = '0' && (c2.isDigit && c2 ≠ '0') then some (digitVal c2, r)
    else if c1.isDigit && c1 ≠ '0' then some (digitVal c1, c2 :: r)
    else none
  | [c1] => if c1.isDigit && c1 ≠ '0' then some (digitVal c1, []) else none
  | [] => none

/-- Day field of `strptime`'s format `%d`: the regex
`(3[01]|[12]\d|0[1-9]|[1-9])`, alternatives tried in order. -/
def dayParse : List Char → Option (Nat × List Char)
  | c1 :: c2 :: r =>
    if c1 = '3' && (c2 = '0' || c2 = '1') then some (30 + digitVal c2, r)
    else if (c1 = '1' || c1 = '2') && c2.isDigit then
      some (10 * digitVal c1 + digitVal c2, r)
    else if c1 = '0' && (c2.isDigit && c2 ≠ '0') then some (digitVal c2, r)
    else if c1.isDigit && c1 ≠ '0' then some (digitVal c1, c2 :: r)
    else none
  | [c1] => if c1.isDigit && c1 ≠ '0' then some (digitVal c1, []) else none
  | [] => none

/-- Model of `datetime.strptime(s, "%Y-%m-%d")`: a 4-digit year, dash,
month field, dash, day field, no trailing characters, then the
`datetime(y, m, d)` range check; the result is the midnight instant of
that civil date.  `none` models the raised `ValueError`. -/
def strptime (s : String) : Option Int :=
  match s.data with
  | y1 :: y2 :: y3 :: y4 :: c5 :: r =>
    if y1.isDigit && y2.isDigit && y3.isDigit && y4.isDigit && c5 = '-' then
      let y := 1000 * digitVal y1 + 100 * digitVal y2 + 10 * digitVal y3 + digitVal y4
      match monthParse r with
      | some (m, r2) =>
        match r2 with
        | c6 :: r3 =>
          if c6 = '-' then
            match dayParse r3 with
            | some (d, r4) =>
              match r4 with
              | [] =>
                if 1 ≤ y && decide (d ≤ daysInMonth y m) then
                  some (daysFromCivil y m d * usPerDay)
                else none
              | _ => none
            | none => none
          else none
        | [] => none
      | none => none
    else none
  | _ => none

/-- Python-level errors that `HolidayFetcher.run` can catch: a fetch
failure (network error, non-2xx status or undecodable body) for a year, a
`TypeError`, a `KeyError`, a `ValueError` from `strptime`, and an `OSError`
from `os.remove`. -/
inductive PyErr where
  | fetchErr (year : Int) : PyErr
  | typeErr : PyErr
  | keyErr : PyErr
  | valueErr : PyErr
  | removeErr (file : String) : PyErr
deriving DecidableEq

/-- Python truthiness of a JSON-derived value. -/
def pyTruthy : Json → Bool
  | .null => false
  | .bool b => b
  | .num n => n != 0
  | .str s => s.data ≠ []
  | .arr a => match a with | .nil => false | .cons _ _ => true
  | .obj m => match m with | .nil => false | .cons _ _ _ => true

/-- Python `day[k]` on a JSON-derived value: dict lookup (`KeyError` when
missing), `TypeError` when the value is not a dict. -/
def getItem (j : Json) (k : String) : Except PyErr Json :=
  match j with
  | .obj ms =>
    match ms.lookupLast k with
    | some v => .ok v
    | none => .error .keyErr
  | _ => .error .typeErr

/-- Python `data += v` for a list `data`: extends element-wise for a list,
character-wise for a string, key-wise for a dict, and raises `TypeError`
for non-iterable values. -/
def pyExtend (data : List Json) (v : Json) : Except PyErr (List Json) :=
  match v with
  | .arr l => .ok (data ++ l.toList)
  | .str s => .ok (data ++ s.data.map (fun c => Json.str (String.mk [c])))
  | .obj ms => .ok (data ++ ms.keys.map Json.str)
  | _ => .error .typeErr

/-- The cache directory: an association list from file name to content. -/
abbrev FS := List (String × String)

/-- Content of a file, `none` when absent. -/
def fsLookup : FS → String → Option String
  | [], _ => none
  | (a, b) :: tl, k => if a = k then some b else fsLookup tl k

/-- Model of `os.path.exists`. -/
def fsHas (fs : FS) (k : String) : Bool := (fsLookup fs k).isSome

/-- Model of `os.remove`: delete the entry of file `k`. -/
def fsErase : FS → String → FS
  | [], _ => []
  | (a, b) :: tl, k => if a = k then tl else (a, b) :: fsErase tl k

/-- Model of `open(k, "w")` plus a full write: create or truncate. -/
def fsWrite (fs : FS) (k v : String) : FS := (k, v) :: fsErase fs k

/-- Model of `os.listdir`: the file names, a snapshot list. -/
def listdir (fs : FS) : List String := fs.map Prod.fst

/-- The environment a refresh runs against: `current_year` captured by
`__init__` via `datetime.now().year`, the instant `now` taken inside
`run`, the network (`fetch y` is the parsed body of a successful GET for
year `y`, `none` any fetch/parse failure), and filesystem fault oracles. -/
structure Env where
  currentYear : Int
  now : Int
  fetch : Int → Option Json
  readFails : String → Bool
  removeFails : String → Bool

/-- Cache file name for a year: `f"holidays_{year}.json"`. -/
def fileName (y : Int) : String := "holidays_" ++ intRepr y ++ ".json"

/-- The required years `[self.current_year, self.current_year + 1]`. -/
def requiredYears (env : Env) : List Int :=
  [env.currentYear, env.currentYear + 1]

/-- File content as seen by `open(file, "r")`: `none` when the file is
absent or unreadable. -/
def readContent (env : Env) (fs : FS) (file : String) : Option String :=
  if env.readFails file then none else fsLookup fs file

/-- Model of `_load_cache`: parse the file and return its `days` value via
`.get("days", [])`; any failure inside (unreadable file, undecodable JSON,
non-dict document) yields the empty list.  The result is the raw `days`
value, which need not be a list. -/
def loadCache (content : Option String) : Json :=
  match content with
  | none => .arr .nil
  | some s =>
    match Json.parse s with
    | some (.obj ms) =>
      match ms.lookupLast "days" with
      | some v => v
      | none => .arr .nil
    | some _ => .arr .nil
    | none => .arr .nil

/-- State threaded through the per-year loop of `run`: the working set
`data`, the cache directory, and the years for which a network fetch was
attempted (instrumentation; the code performs `_fetch_and_cache` exactly
for those years, in order). -/
structure LSt where
  data : List Json
  fs : FS
  fetched : List Int
deriving DecidableEq

/-- The `data += self._load_cache(cache_file)` step of `run`; a `TypeError`
from extending by a non-sequence propagates with the state at the raise. -/
def loadStep (env : Env) (file : String) (s : LSt) : Except (PyErr × LSt) LSt :=
  match pyExtend s.data (loadCache (readContent env s.fs file)) with
  | .ok d => .ok { s with data := d }
  | .error e => .error (e, s)

/-- One iteration of the per-year loop of `run`: fetch-and-cache when the
cache file does not exist (a fetch failure aborts, re-raised by
`_fetch_and_cache`), then load the cache file into the working set. -/
def processYear (env : Env) (y : Int) (s : LSt) : Except (PyErr × LSt) LSt :=
  let file := fileName y
  if fsHas s.fs file then
    loadStep env file s
  else
    match env.fetch y with
    | none => .error (.fetchErr y, { s with fetched := s.fetched ++ [y] })
    | some p =>
      loadStep env file
        { s with fs := fsWrite s.fs file (Json.render p),
                 fetched := s.fetched ++ [y] }

/-- The `for year in self.required_years` loop of `run`. -/
def fetchYears (env : Env) (years : List Int) (s : LSt) :
    Except (PyErr × LSt) LSt :=
  match years with
  | [] => .ok s
  | y :: tl =>
    match processYear env y s with
    | .ok s1 => fetchYears env tl s1
    | .error e => .error e

/-- The year encoded by a file name when `re.compile(r"holidays_(\d\x7b4\x7d)\.json").match(name)`
succeeds: `re.match` anchors at the start only, so the pattern is matched
as a prefix of the name and trailing characters are ignored. -/
def cacheNameYear (nm : String) : Option Int :=
  match nm.data with
  | 'h' :: 'o' :: 'l' :: 'i' :: 'd' :: 'a' :: 'y' :: 's' :: '_' ::
      d1 :: d2 :: d3 :: d4 :: '.' :: 'j' :: 's' :: 'o' :: 'n' :: _ =>
    if d1.isDigit && d2.isDigit && d3.isDigit && d4.isDigit then
      some ((1000 * digitVal d1 + 100 * digitVal d2 + 10 * digitVal d3 +
        digitVal d4 : Nat) : Int)
    else none
  | _ => none

/-- Model of `_cleanup_old_cache`: iterate over the `os.listdir` snapshot
`names`; for each name matching the cache pattern with a year outside the
required set, remove the file.  A failing `os.remove` raises, carrying the
directory state and the removals performed so far. -/
def cleanupLoop (env : Env) (names : List String) (fs : FS)
    (removed : List String) : Except (PyErr × FS × List String) (FS × List String) :=
  match names with
  | [] => .ok (fs, removed)
  | nm :: tl =>
    match cacheNameYear nm with
    | some y =>
      if (requiredYears env).contains y then cleanupLoop env tl fs removed
      else if env.removeFails nm then .error (.removeErr nm, fs, removed)
      else cleanupLoop env tl (fsErase fs nm) (removed ++ [nm])
    | none => cleanupLoop env tl fs removed

/-- The emitted nearest-holiday dict
`{"name": ..., "date": ..., "days_left": ...}`. -/
structure Nearest where
  name : Json
  date : String
  days_left : Int
deriving DecidableEq

/-- The comparison `if not nearest or days_left < nearest["days_left"]`. -/
def nearestBeat (acc : Option Nearest) (dl : Int) : Bool :=
  match acc with
  | none => true
  | some a => dl < a.days_left

/-- The strict-string requirement of `strptime`: a non-string argument
raises `TypeError`. -/
def asDateStr (j : Json) : Except PyErr String :=
  match j with
  | .str s => .ok s
  | _ => .error .typeErr

/-- The scan loop of `run` over the working set: per record, parse
`day["date"]`, keep the record when `date >= now and day["isOffDay"]`, and
track the minimum `days_left = (date - now).days`; any dynamic-typing or
parse error propagates out of the loop. -/
def scanLoop (days : List Json) (now : Int) (nearest : Option Nearest) :
    Except PyErr (Option Nearest) :=
  match days with
  | [] => .ok nearest
  | day :: tl =>
    match getItem day "date" with
    | .error e => .error e
    | .ok dv =>
      match asDateStr dv with
      | .error e => .error e
      | .ok ds =>
        match strptime ds with
        | none => .error .valueErr
        | some t =>
          if now ≤ t then
            match getItem day "isOffDay" with
            | .error e => .error e
            | .ok off =>
              if pyTruthy off then
                let dl := Int.fdiv (t - now) usPerDay
                if nearestBeat nearest dl then
                  match getItem day "name" with
                  | .error e => .error e
                  | .ok nm => scanLoop tl now (some ⟨nm, ds, dl⟩)
                else scanLoop tl now nearest
              else scanLoop tl now nearest
          else scanLoop tl now nearest

/-- What the refresh reports: `data_ready.emit(nearest or \x7b\x7d)` on
success (`none` models the empty dict), `fetch_failed.emit(e)` on any
caught exception. -/
inductive ROut where
  | emitted (nearest : Option Nearest) : ROut
  | failed (e : PyErr) : ROut
deriving DecidableEq

/-- The observable result of one refresh: the emission, the final cache
directory, the years fetched over the network, and the files removed by
cleanup (both in order). -/
structure RunResult where
  out : ROut
  fs : FS
  fetched : List Int
  removed : List String
deriving DecidableEq

/-- Model of `HolidayFetcher.run`: the per-year fetch/load loop, then
`_cleanup_old_cache`, then the nearest-holiday scan and the emission; the
surrounding `try` turns any raise into a `fetch_failed` emission with the
directory state at the raise. -/
def run (env : Env) (fs0 : FS) : RunResult :=
  match fetchYears env (requiredYears env) ⟨[], fs0, []⟩ with
  | .error (e, s) => ⟨.failed e, s.fs, s.fetched, []⟩
  | .ok s =>
    match cleanupLoop env (listdir s.fs) s.fs [] with
    | .error (e, fs1, rem) => ⟨.failed e, fs1, s.fetched, rem⟩
    | .ok (fs1, rem) =>
      match scanLoop s.data env.now none with
      | .error e => ⟨.failed e, fs1, s.fetched, rem⟩
      | .ok r => ⟨.emitted r, fs1, s.fetched, rem⟩

/-- A file name is a stale-cache target when the cleanup pattern matches it
(as a prefix) with a year outside the required set. -/
def staleTarget (env : Env) (nm : String) : Bool :=
  match cacheNameYear nm with
  | some y => !((requiredYears env).contains y)
  | none => false

/-- Spec-side reading of the cache naming pattern as an exact full-name
match `holidays_<4-digit-year>.json`: the pattern matches as a prefix and
the name has exactly its 18 characters, so nothing trails it. -/
def exactCacheName (nm : String) : Option Int :=
  if nm.data.length = 18 then cacheNameYear nm else none

/-- Spec-side qualification of one record, following the claim's words: a
record qualifies when its `date` is `>= now` and `isOffDay == true`, and
then carries `days_left = floor(date - now, in days)`. -/
def qualify (now : Int) (day : Json) : Option Nearest :=
  match getItem day "date" with
  | .ok (.str ds) =>
    match strptime ds with
    | some t =>
      match getItem day "isOffDay" with
      | .ok off =>
        if now ≤ t && off = Json.bool true then
          match getItem day "name" with
          | .ok nm => some ⟨nm, ds, Int.fdiv (t - now) usPerDay⟩
          | .error _ => none
        else none
      | .error _ => none
    | none => none
  | _ => none

/-- Spec-side working-set filter: the qualifying records, in order. -/
def qualRecs (now : Int) (data : List Json) : List Nearest :=
  data.filterMap (qualify now)

/-- Spec-side selection: keep the record with the minimum `days_left`,
first-seen winning ties because the comparison is strict `<`. -/
def firstMin (l : List Nearest) : Option Nearest :=
  l.foldl
    (fun acc x =>
      match acc with
      | none => some x
      | some a => if x.days_left < a.days_left then some x else acc)
    none

/-- A `date` field value that is a string accepted by `strptime`. -/
def dateOk : Option Json → Bool
  | some (.str ds) => (strptime ds).isSome
  | _ => false

/-- An `isOffDay` field value that is a boolean. -/
def offDayOk : Option Json → Bool
  | some (.bool _) => true
  | _ => false

/-- A well-shaped holiday record: an object whose `date` is a string
accepted by `strptime`, whose `isOffDay` is a boolean, and which carries a
`name`. -/
def recordWF (j : Json) : Bool :=
  match j with
  | .obj ms =>
    dateOk (ms.lookupLast "date") && offDayOk (ms.lookupLast "isOffDay") &&
      (ms.lookupLast "name").isSome
  | _ => false

/-- Cache-file content that `_load_cache` maps to zero records without
raising in `run`: an unreadable file, an undecodable body, a non-object
document, or an object without a `days` key. -/
def corruptContent (c : Option String) : Bool :=
  match c with
  | none => true
  | some s =>
    match Json.parse s with
    | none => true
    | some (.obj ms) =>
      match ms.lookupLast "days" with
      | none => true
      | some _ => false
    | some _ => true

/-- Concrete holiday record used by witnesses. -/
def mkDay (nm dt : String) (off : Bool) : Json :=
  Json.obj (.cons "name" (.str nm)
    (.cons "date" (.str dt)
      (.cons "isOffDay" (.bool off) .nil)))

/-- Concrete remote payload for a year used by witnesses: one off-day on
October 1st and one working day on September 20th. -/
def payloadY (y : Int) : Json :=
  Json.obj (.cons "days"
    (.arr (.cons (mkDay "A" (intRepr y ++ "-10-01") true)
      (.cons (mkDay "B" (intRepr y ++ "-09-20") false) .nil)))
    (.cons "year" (.num y) .nil))

/-- Witness environment: year 2025, now at midnight of 2025-09-25, network
up for every year, no filesystem faults. -/
def envW : Env where
  currentYear := 2025
  now := daysFromCivil 2025 9 25 * usPerDay
  fetch := fun y => some (payloadY y)
  readFails := fun _ => false
  removeFails := fun _ => false

/-- Witness environment with the network down for every year. -/
def envDown : Env := { envW with fetch := fun _ => none }

/-- Witness cache directory holding both required years' files. -/
def fsBoth : FS :=
  [(fileName 2025, Json.render (payloadY 2025)),
   (fileName 2026, Json.render (payloadY 2026))]

/-- Environment whose `os.remove` fails on one stale cache file. -/
def envRF : Env :=
  { envW with removeFails := fun nm => nm = "holidays_1999.json" }

/-- Cache directory with both required files and two stale cache files. -/
def fsRF : FS :=
  fsBoth ++ [("holidays_1999.json", "x"), ("holidays_1900.json", "x")]

/-- Cache directory whose 2025 file is valid JSON of the wrong shape
(`days` bound to a number) next to a good 2026 file. -/
def fsBadDays : FS :=
  [(fileName 2025, Json.render (Json.obj (.cons "days" (.num 5) .nil))),
   (fileName 2026, Json.render (payloadY 2026))]

/-- The `fetched` instrumentation of a per-year loop outcome (the loop
state is carried by both the success and the raise). -/
def fetchedOf : Except (PyErr × LSt) LSt → List Int
  | .ok s => s.fetched
  | .error (_, s) => s.fetched

/-- The directory of a per-year loop outcome. -/
def fsOf : Except (PyErr × LSt) LSt → FS
  | .ok s => s.fs
  | .error (_, s) => s.fs

/-- The nearest holiday computed in the witness scenario `envW` over an
empty starting cache: the off-day `A` on 2025-10-01, six days ahead. -/
def nearestW : Nearest := ⟨Json.str "A", "2025-10-01", 6⟩

/-- Witness working set: one qualifying off-day and one working day. -/
def dataW : List Json :=
  [mkDay "A" "2025-10-01" true, mkDay "B" "2025-09-20" false]

theorem fsHas_iff_exists_mem {fs : FS} {k : String} :
    fsHas fs k = true ↔ ∃ v, (k, v) ∈ fs := by
  induction fs with
  | nil => simp [fsHas, fsLookup]
  | cons e tl ih =>
    obtain ⟨a, b⟩ := e
    by_cases hak : a = k
    · subst hak
      simp [fsHas, fsLookup]
    · simp only [fsHas, fsLookup, if_neg hak] at *
      simp only [List.mem_cons, Prod.mk.injEq]
      constructor
      · intro h
        obtain ⟨v, hv⟩ := ih.1 h
        exact ⟨v, Or.inr hv⟩
      · rintro ⟨v, hv | hv⟩
        · exact absurd hv.1.symm hak
        · exact ih.2 ⟨v, hv⟩

theorem fsErase_of_not_has {fs : FS} {k : String} (h : fsHas fs k = false) :
    fsErase fs k = fs := by
  induction fs with
  | nil => rfl
  | cons e tl ih =>
    obtain ⟨a, b⟩ := e
    by_cases hak : a = k
    · subst hak
      simp [fsHas, fsLookup] at h
    · simp only [fsHas, fsLookup, if_neg hak] at h
      simp [fsErase, hak, ih h]

theorem fsLookup_fsErase_ne {fs : FS} {k k' : String} (h : k' ≠ k) :
    fsLookup (fsErase fs k) k' = fsLookup fs k' := by
  induction fs with
  | nil => rfl
  | cons e tl ih =>
    obtain ⟨a, b⟩ := e
    by_cases hak : a = k
    · subst hak
      have h1 : fsErase ((a, b) :: tl) a = tl := by simp [fsErase]
      have h2 : fsLookup ((a, b) :: tl) k' = fsLookup tl k' := by
        show (if a = k' then some b else fsLookup tl k') = fsLookup tl k'
        exact if_neg (fun hh => h hh.symm)
      rw [h1, h2]
    · simp only [fsErase, if_neg hak, fsLookup]
      by_cases hak' : a = k'
      · simp [hak']
      · simp [hak', ih]

theorem fsLookup_fsWrite_self {fs : FS} {k v : String} :
    fsLookup (fsWrite fs k v) k = some v := by
  simp [fsWrite, fsLookup]

theorem fsLookup_fsWrite_ne {fs : FS} {k k' v : String} (h : k' ≠ k) :
    fsLookup (fsWrite fs k v) k' = fsLookup fs k' := by
  simp only [fsWrite, fsLookup, if_neg (fun hh : k = k' => h hh.symm)]
  exact fsLookup_fsErase_ne h

theorem fsHas_fsWrite_self {fs : FS} {k v : String} :
    fsHas (fsWrite fs k v) k = true := by
  simp [fsHas, fsLookup_fsWrite_self]

theorem fsHas_fsWrite_ne {fs : FS} {k k' v : String} (h : k' ≠ k) :
    fsHas (fsWrite fs k v) k' = fsHas fs k' := by
  simp [fsHas, fsLookup_fsWrite_ne h]

theorem fsHas_fsWrite_of_has {fs : FS} {k k' v : String}
    (h : fsHas fs k' = true) : fsHas (fsWrite fs k v) k' = true := by
  by_cases hk : k' = k
  · subst hk; exact fsHas_fsWrite_self
  · rw [fsHas_fsWrite_ne hk]; exact h

theorem listdir_fsErase_sublist (fs : FS) (k : String) :
    (listdir (fsErase fs k)).Sublist (listdir fs) := by
  induction fs with
  | nil => simp [fsErase, listdir]
  | cons e tl ih =>
    obtain ⟨a, b⟩ := e
    by_cases hak : a = k
    · simp only [fsErase, if_pos hak, listdir, List.map_cons]
      exact List.Sublist.cons _ (List.Sublist.refl _)
    · simp only [fsErase, if_neg hak, listdir, List.map_cons]
      exact List.Sublist.cons₂ _ ih

theorem nodup_listdir_fsErase {fs : FS} {k : String}
    (h : (listdir fs).Nodup) : (listdir (fsErase fs k)).Nodup :=
  (listdir_fsErase_sublist fs k).nodup h

theorem not_mem_listdir_fsErase {fs : FS} {k : String}
    (h : (listdir fs).Nodup) : k ∉ listdir (fsErase fs k) := by
  induction fs with
  | nil => simp [fsErase, listdir]
  | cons e tl ih =>
    obtain ⟨a, b⟩ := e
    simp only [listdir, List.map_cons, List.nodup_cons] at h
    by_cases hak : a = k
    · subst hak
      simp only [fsErase, if_pos rfl]
      exact h.1
    · simp only [fsErase, if_neg hak, listdir, List.map_cons, List.mem_cons]
      rintro (hh | hh)
      · exact hak hh.symm
      · exact ih h.2 hh

theorem nodup_listdir_fsWrite {fs : FS} {k v : String}
    (h : (listdir fs).Nodup) : (listdir (fsWrite fs k v)).Nodup := by
  simp only [fsWrite, listdir, List.map_cons, List.nodup_cons]
  exact ⟨not_mem_listdir_fsErase h, nodup_listdir_fsErase h⟩

theorem fsErase_eq_filter {fs : FS} {k : String} (h : (listdir fs).Nodup) :
    fsErase fs k = fs.filter (fun e => e.1 ≠ k) := by
  induction fs with
  | nil => rfl
  | cons e tl ih =>
    obtain ⟨a, b⟩ := e
    simp only [listdir, List.map_cons, List.nodup_cons] at h
    by_cases hak : a = k
    · subst hak
      rw [fsErase, if_pos rfl, List.filter_cons_of_neg (by simp)]
      symm
      apply List.filter_eq_self.2
      intro e he
      simp only [ne_eq, decide_eq_true_eq]
      intro hek
      exact h.1 (hek ▸ List.mem_map_of_mem Prod.fst he)
    · rw [fsErase, if_neg hak, List.filter_cons_of_pos (by simp [hak]), ih h.2]

theorem digitVal_digitChar {k : Nat} (h : k < 10) :
    digitVal (digitChar k) = k := by
  interval_cases k <;> rfl

theorem isDigit_digitChar {k : Nat} (h : k < 10) :
    (digitChar k).isDigit = true := by
  interval_cases k <;> rfl

theorem natDigitsM_lt10 {n : Nat} (h : n < 10) : natDigitsM n = [digitChar n] := by
  unfold natDigitsM
  rw [if_pos h]

theorem natDigitsM_ge10 {n : Nat} (h : ¬ n < 10) :
    natDigitsM n = natDigitsM (n / 10) ++ [digitChar (n % 10)] := by
  conv_lhs => rw [natDigitsM]
  rw [if_neg h]

theorem natDigitsAux_eq_m :
    ∀ (f n : Nat) (acc : List Char), n < f →
      natDigitsAux f n acc = natDigitsM n ++ acc := by
  intro f
  induction f with
  | zero => omega
  | succ f ih =>
    intro n acc h
    show (if n < 10 then digitChar n :: acc
      else natDigitsAux f (n / 10) (digitChar (n % 10) :: acc)) = _
    by_cases h10 : n < 10
    · rw [if_pos h10, natDigitsM_lt10 h10]
      rfl
    · rw [if_neg h10, ih (n / 10) _ (by omega), natDigitsM_ge10 h10,
        List.append_assoc]
      rfl

theorem natDigits_eq_m (n : Nat) : natDigits n = natDigitsM n := by
  rw [natDigits, natDigitsAux_eq_m (n + 1) n [] (by omega), List.append_nil]

theorem natDigits_lt10 {n : Nat} (h : n < 10) : natDigits n = [digitChar n] := by
  rw [natDigits_eq_m]
  exact natDigitsM_lt10 h

theorem natDigits_ge10 {n : Nat} (h : ¬ n < 10) :
    natDigits n = natDigits (n / 10) ++ [digitChar (n % 10)] := by
  rw [natDigits_eq_m, natDigits_eq_m]
  exact natDigitsM_ge10 h

theorem natDigits_four {n : Nat} (h1 : 1000 ≤ n) (h2 : n < 10000) :
    natDigits n = [digitChar (n / 1000), digitChar (n / 100 % 10),
      digitChar (n / 10 % 10), digitChar (n % 10)] := by
  have e1 : natDigits n = natDigits (n / 10) ++ [digitChar (n % 10)] :=
    natDigits_ge10 (by omega)
  have e2 : natDigits (n / 10) =
      natDigits (n / 10 / 10) ++ [digitChar (n / 10 % 10)] :=
    natDigits_ge10 (by omega)
  have e3 : natDigits (n / 10 / 10) =
      natDigits (n / 10 / 10 / 10) ++ [digitChar (n / 10 / 10 % 10)] :=
    natDigits_ge10 (by omega)
  have e4 : natDigits (n / 10 / 10 / 10) = [digitChar (n / 10 / 10 / 10)] :=
    natDigits_lt10 (by omega)
  rw [e1, e2, e3, e4, show n / 10 / 10 / 10 = n / 1000 from by omega,
    show n / 10 / 10 % 10 = n / 100 % 10 from by omega]
  rfl

theorem intChars_of_range {y : Int} (h1 : 1000 ≤ y) (h2 : y ≤ 9999) :
    intChars y = [digitChar (y.toNat / 1000), digitChar (y.toNat / 100 % 10),
      digitChar (y.toNat / 10 % 10), digitChar (y.toNat % 10)] := by
  rw [intChars, if_neg (by omega)]
  exact natDigits_four (by omega) (by omega)

theorem fileName_data {y : Int} (h1 : 1000 ≤ y) (h2 : y ≤ 9999) :
    (fileName y).data = 'h' :: 'o' :: 'l' :: 'i' :: 'd' :: 'a' :: 'y' :: 's' :: '_' ::
      digitChar (y.toNat / 1000) :: digitChar (y.toNat / 100 % 10) ::
      digitChar (y.toNat / 10 % 10) :: digitChar (y.toNat % 10) ::
      '.' :: 'j' :: 's' :: 'o' :: 'n' :: [] := by
  show (("holidays_" ++ intRepr y) ++ ".json").data = _
  rw [String.data_append, String.data_append, intRepr,
    show (String.mk (intChars y)).data = intChars y from rfl,
    intChars_of_range h1 h2]
  rfl

theorem cacheNameYear_eq (nm : String) (d1 d2 d3 d4 : Char) (rest : List Char)
    (hd : nm.data = 'h' :: 'o' :: 'l' :: 'i' :: 'd' :: 'a' :: 'y' :: 's' :: '_' ::
      d1 :: d2 :: d3 :: d4 :: '.' :: 'j' :: 's' :: 'o' :: 'n' :: rest) :
    cacheNameYear nm =
      (if d1.isDigit && d2.isDigit && d3.isDigit && d4.isDigit then
        some ((1000 * digitVal d1 + 100 * digitVal d2 + 10 * digitVal d3 +
          digitVal d4 : Nat) : Int)
      else none) := by
  delta cacheNameYear
  rw [hd]
  rfl

theorem cacheNameYear_fileName {y : Int} (h1 : 1000 ≤ y) (h2 : y ≤ 9999) :
    cacheNameYear (fileName y) = some y := by
  rw [cacheNameYear_eq _ _ _ _ _ _ (fileName_data h1 h2)]
  rw [if_pos (by
    simp [isDigit_digitChar (show y.toNat / 1000 < 10 from by omega),
      isDigit_digitChar (show y.toNat / 100 % 10 < 10 from by omega),
      isDigit_digitChar (show y.toNat / 10 % 10 < 10 from by omega),
      isDigit_digitChar (show y.toNat % 10 < 10 from by omega)])]
  rw [digitVal_digitChar (show y.toNat / 1000 < 10 from by omega),
    digitVal_digitChar (show y.toNat / 100 % 10 < 10 from by omega),
    digitVal_digitChar (show y.toNat / 10 % 10 < 10 from by omega),
    digitVal_digitChar (show y.toNat % 10 < 10 from by omega)]
  simp only [Option.some.injEq]
  omega

theorem exactCacheName_fileName {y : Int} (h1 : 1000 ≤ y) (h2 : y ≤ 9999) :
    exactCacheName (fileName y) = some y := by
  rw [exactCacheName, if_pos (by rw [fileName_data h1 h2]; rfl)]
  exact cacheNameYear_fileName h1 h2

theorem cacheNameYear_of_exact {nm : String} {y : Int}
    (h : exactCacheName nm = some y) : cacheNameYear nm = some y := by
  rw [exactCacheName] at h
  by_cases hl : nm.data.length = 18
  · rwa [if_pos hl] at h
  · rw [if_neg hl] at h
    exact absurd h (by simp)
theorem staleTarget_of_none {env : Env} {nm : String}
    (h : cacheNameYear nm = none) : staleTarget env nm = false := by
  simp [staleTarget, h]

theorem staleTarget_of_some {env : Env} {nm : String} {y : Int}
    (h : cacheNameYear nm = some y) :
    staleTarget env nm = !((requiredYears env).contains y) := by
  simp [staleTarget, h]

theorem staleTarget_true_of {env : Env} {nm : String} {y : Int}
    (hcy : cacheNameYear nm = some y)
    (hreq : ¬ (requiredYears env).contains y = true) :
    staleTarget env nm = true := by
  rw [staleTarget_of_some hcy]
  cases hc : (requiredYears env).contains y
  · rfl
  · exact absurd hc hreq

theorem staleTarget_false_of {env : Env} {nm : String} {y : Int}
    (hcy : cacheNameYear nm = some y)
    (hreq : (requiredYears env).contains y = true) :
    staleTarget env nm = false := by
  rw [staleTarget_of_some hcy, hreq]
  rfl

theorem mem_fsErase_of_ne {fs : FS} {k : String} {e : String × String}
    (he : e ∈ fs) (hne : e.1 ≠ k) : e ∈ fsErase fs k := by
  induction fs with
  | nil => simp at he
  | cons a tl ih =>
    obtain ⟨x, b⟩ := a
    rcases List.mem_cons.1 he with h1 | h1
    · subst h1
      by_cases hxk : x = k
      · exact absurd hxk hne
      · simp [fsErase, hxk]
    · by_cases hxk : x = k
      · simpa [fsErase, hxk] using h1
      · simp only [fsErase, if_neg hxk]
        exact List.mem_cons_of_mem _ (ih h1)

theorem mem_fsErase_iff {fs : FS} {k : String} {e : String × String}
    (hn : (listdir fs).Nodup) : e ∈ fsErase fs k ↔ e ∈ fs ∧ e.1 ≠ k := by
  rw [fsErase_eq_filter hn, List.mem_filter]
  simp

theorem cleanupLoop_ok_mem (env : Env) (names : List String) :
    ∀ (fs : FS) (rem : List String) (fs' : FS) (rem' : List String),
      (listdir fs).Nodup →
      cleanupLoop env names fs rem = .ok (fs', rem') →
      ∀ e : String × String,
        e ∈ fs' ↔ (e ∈ fs ∧ ¬(e.1 ∈ names ∧ staleTarget env e.1 = true)) := by
  induction names with
  | nil =>
    intro fs rem fs' rem' _ h e
    simp only [cleanupLoop, Except.ok.injEq, Prod.mk.injEq] at h
    simp [← h.1]
  | cons nm tl ih =>
    intro fs rem fs' rem' hn h e
    rw [cleanupLoop] at h
    cases hcy : cacheNameYear nm with
    | none =>
      simp only [hcy] at h
      have hmem := ih fs rem fs' rem' hn h e
      rw [hmem]
      have hst : staleTarget env nm = false := staleTarget_of_none hcy
      by_cases henm : e.1 = nm
      · rw [henm]
        simp [hst]
      · simp [henm]
    | some y =>
      simp only [hcy] at h
      by_cases hreq : (requiredYears env).contains y
      · rw [if_pos hreq] at h
        have hmem := ih fs rem fs' rem' hn h e
        rw [hmem]
        have hst : staleTarget env nm = false := staleTarget_false_of hcy hreq
        by_cases henm : e.1 = nm
        · rw [henm]
          simp [hst]
        · simp [henm]
      · rw [if_neg hreq] at h
        by_cases hrf : env.removeFails nm
        · rw [if_pos hrf] at h
          exact absurd h (by simp)
        · rw [if_neg (by simp [hrf])] at h
          have hn2 : (listdir (fsErase fs nm)).Nodup := nodup_listdir_fsErase hn
          have hmem := ih _ _ fs' rem' hn2 h e
          rw [hmem, mem_fsErase_iff hn]
          have hst : staleTarget env nm = true := staleTarget_true_of hcy hreq
          by_cases henm : e.1 = nm
          · rw [henm]
            simp [hst]
          · simp [henm]

theorem cleanupLoop_ok_removed (env : Env) (names : List String) :
    ∀ (fs : FS) (rem : List String) (fs' : FS) (rem' : List String),
      cleanupLoop env names fs rem = .ok (fs', rem') →
      rem' = rem ++ names.filter (fun nm => staleTarget env nm) := by
  induction names with
  | nil =>
    intro fs rem fs' rem' h
    simp only [cleanupLoop, Except.ok.injEq, Prod.mk.injEq] at h
    simp [← h.2]
  | cons nm tl ih =>
    intro fs rem fs' rem' h
    rw [cleanupLoop] at h
    cases hcy : cacheNameYear nm with
    | none =>
      simp only [hcy] at h
      rw [ih fs rem fs' rem' h,
        List.filter_cons_of_neg (by simp [staleTarget_of_none hcy])]
    | some y =>
      simp only [hcy] at h
      by_cases hreq : (requiredYears env).contains y
      · rw [if_pos hreq] at h
        rw [ih fs rem fs' rem' h,
          List.filter_cons_of_neg (by simp [staleTarget_false_of hcy hreq])]
      · rw [if_neg hreq] at h
        have hst : staleTarget env nm = true := staleTarget_true_of hcy hreq
        by_cases hrf : env.removeFails nm
        · rw [if_pos hrf] at h
          exact absurd h (by simp)
        · rw [if_neg (by simp [hrf])] at h
          rw [ih _ _ fs' rem' h, List.filter_cons_of_pos (by simp [hst])]
          simp

theorem cleanupLoop_error_first (env : Env) (pre : List String) :
    ∀ (post : List String) (fs : FS) (rem : List String) (nm : String),
      staleTarget env nm = true → env.removeFails nm = true →
      (∀ x ∈ pre, staleTarget env x = true → env.removeFails x = false) →
      ∃ fs1, cleanupLoop env (pre ++ nm :: post) fs rem =
          .error (.removeErr nm, fs1,
            rem ++ pre.filter (fun x => staleTarget env x)) ∧
        ∀ e ∈ fs, e.1 ∉ pre → e ∈ fs1 := by
  induction pre with
  | nil =>
    intro post fs rem nm hst hrf _
    refine ⟨fs, ?_, by simp⟩
    obtain ⟨y, hcy, hreq⟩ : ∃ y, cacheNameYear nm = some y ∧
        (requiredYears env).contains y = false := by
      unfold staleTarget at hst
      cases hcy : cacheNameYear nm with
      | none => rw [hcy] at hst; simp at hst
      | some y =>
        rw [hcy] at hst
        exact ⟨y, rfl, by simpa using hst⟩
    rw [List.nil_append, cleanupLoop]
    simp only [hcy]
    rw [if_neg (by rw [hreq]; simp), if_pos hrf]
    simp
  | cons x pre' ih =>
    intro post fs rem nm hst hrf hpre
    rw [List.cons_append, cleanupLoop]
    cases hcy : cacheNameYear x with
    | none =>
      obtain ⟨fs1, h1, h2⟩ := ih post fs rem nm hst hrf
        (fun z hz => hpre z (List.mem_cons_of_mem _ hz))
      refine ⟨fs1, ?_, fun e he hne => h2 e he (fun hh => hne (List.mem_cons_of_mem _ hh))⟩
      simp only [hcy]
      rw [List.filter_cons_of_neg (by simp [staleTarget_of_none hcy])]
      exact h1
    | some y =>
      simp only [hcy]
      by_cases hreq : (requiredYears env).contains y
      · rw [if_pos hreq]
        obtain ⟨fs1, h1, h2⟩ := ih post fs rem nm hst hrf
          (fun z hz => hpre z (List.mem_cons_of_mem _ hz))
        refine ⟨fs1, ?_, fun e he hne => h2 e he (fun hh => hne (List.mem_cons_of_mem _ hh))⟩
        rw [List.filter_cons_of_neg (by simp [staleTarget_false_of hcy hreq])]
        exact h1
      · rw [if_neg hreq]
        have hstx : staleTarget env x = true := staleTarget_true_of hcy hreq
        have hrfx : env.removeFails x = false :=
          hpre x (List.mem_cons_self _ _) hstx
        rw [if_neg (by simp [hrfx])]
        obtain ⟨fs1, h1, h2⟩ := ih post (fsErase fs x) (rem ++ [x]) nm hst hrf
          (fun z hz => hpre z (List.mem_cons_of_mem _ hz))
        refine ⟨fs1, ?_, ?_⟩
        · rw [List.filter_cons_of_pos (by simp [hstx]), h1]
          simp
        · intro e he hne
          have hex : e.1 ≠ x := fun hh =>
            hne (hh ▸ List.mem_cons_self _ _)
          exact h2 e (mem_fsErase_of_ne he hex)
            (fun hh => hne (List.mem_cons_of_mem _ hh))

theorem loadStep_ok {env : Env} {file : String} {s s' : LSt}
    (h : loadStep env file s = .ok s') :
    s'.fs = s.fs ∧ s'.fetched = s.fetched := by
  unfold loadStep at h
  cases hp : pyExtend s.data (loadCache (readContent env s.fs file)) with
  | ok d =>
    simp only [hp, Except.ok.injEq] at h
    rw [← h]
    exact ⟨rfl, rfl⟩
  | error e =>
    simp only [hp] at h
    exact Except.noConfusion h

theorem loadStep_error {env : Env} {file : String} {s s1 : LSt} {e : PyErr}
    (h : loadStep env file s = .error (e, s1)) : s1 = s := by
  unfold loadStep at h
  cases hp : pyExtend s.data (loadCache (readContent env s.fs file)) with
  | ok d =>
    simp only [hp] at h
    exact Except.noConfusion h
  | error e2 =>
    simp only [hp, Except.error.injEq, Prod.mk.injEq] at h
    exact h.2.symm

theorem processYear_has {env : Env} {y : Int} {s : LSt}
    (h : fsHas s.fs (fileName y) = true) :
    processYear env y s = loadStep env (fileName y) s := by
  simp only [processYear]
  rw [if_pos h]

theorem processYear_miss_none {env : Env} {y : Int} {s : LSt}
    (h : fsHas s.fs (fileName y) = false) (hf : env.fetch y = none) :
    processYear env y s =
      .error (.fetchErr y, { s with fetched := s.fetched ++ [y] }) := by
  simp only [processYear]
  rw [if_neg (by simp [h]), hf]

theorem processYear_miss_some {env : Env} {y : Int} {s : LSt} {p : Json}
    (h : fsHas s.fs (fileName y) = false) (hf : env.fetch y = some p) :
    processYear env y s = loadStep env (fileName y)
      { s with fs := fsWrite s.fs (fileName y) (Json.render p),
               fetched := s.fetched ++ [y] } := by
  simp only [processYear]
  rw [if_neg (by simp [h]), hf]

theorem processYear_ok {env : Env} {y : Int} {s s' : LSt}
    (h : processYear env y s = .ok s') :
    fsHas s'.fs (fileName y) = true ∧
    (∀ f, fsHas s.fs f = true → fsHas s'.fs f = true) ∧
    ((listdir s.fs).Nodup → (listdir s'.fs).Nodup) := by
  by_cases hh : fsHas s.fs (fileName y) = true
  · rw [processYear_has hh] at h
    obtain ⟨hfs, _⟩ := loadStep_ok h
    rw [hfs]
    exact ⟨hh, fun f hf => hf, fun hn => hn⟩
  · rw [Bool.not_eq_true] at hh
    cases hf : env.fetch y with
    | none =>
      rw [processYear_miss_none hh hf] at h
      exact Except.noConfusion h
    | some p =>
      rw [processYear_miss_some hh hf] at h
      obtain ⟨hfs, _⟩ := loadStep_ok h
      have hfs' : s'.fs = fsWrite s.fs (fileName y) (Json.render p) := hfs
      rw [hfs']
      exact ⟨fsHas_fsWrite_self, fun f hfb => fsHas_fsWrite_of_has hfb,
        fun hn => nodup_listdir_fsWrite hn⟩

theorem fetchYears_cons_ok {env : Env} {y : Int} {tl : List Int} {s s1 : LSt}
    (hp : processYear env y s = .ok s1) :
    fetchYears env (y :: tl) s = fetchYears env tl s1 := by
  rw [fetchYears]
  simp only [hp]

theorem fetchYears_cons_error {env : Env} {y : Int} {tl : List Int} {s : LSt}
    {p : PyErr × LSt} (hp : processYear env y s = .error p) :
    fetchYears env (y :: tl) s = .error p := by
  rw [fetchYears]
  simp only [hp]

theorem fetchYears_ok (env : Env) :
    ∀ (years : List Int) (s s' : LSt), fetchYears env years s = .ok s' →
      (∀ f, fsHas s.fs f = true → fsHas s'.fs f = true) ∧
      (∀ y ∈ years, fsHas s'.fs (fileName y) = true) ∧
      ((listdir s.fs).Nodup → (listdir s'.fs).Nodup) := by
  intro years
  induction years with
  | nil =>
    intro s s' h
    simp only [fetchYears, Except.ok.injEq] at h
    subst h
    exact ⟨fun f hf => hf, by simp, fun hn => hn⟩
  | cons y tl ih =>
    intro s s' h
    rw [fetchYears] at h
    cases hp : processYear env y s with
    | error p =>
      simp only [hp] at h
      exact Except.noConfusion h
    | ok s1 =>
      simp only [hp] at h
      obtain ⟨h1, h2, h3⟩ := processYear_ok hp
      obtain ⟨g1, g2, g3⟩ := ih s1 s' h
      refine ⟨fun f hf => g1 f (h2 f hf), ?_, fun hn => g3 (h3 hn)⟩
      intro z hz
      rcases List.mem_cons.1 hz with rfl | hz
      · exact g1 _ h1
      · exact g2 z hz

theorem run_fy_error {env : Env} {fs0 : FS} {e : PyErr} {s : LSt}
    (h : fetchYears env (requiredYears env) ⟨[], fs0, []⟩ = .error (e, s)) :
    run env fs0 = ⟨.failed e, s.fs, s.fetched, []⟩ := by
  unfold run
  simp only [h]

theorem run_cl_error {env : Env} {fs0 : FS} {s : LSt} {e : PyErr} {fs1 : FS}
    {rem : List String}
    (h1 : fetchYears env (requiredYears env) ⟨[], fs0, []⟩ = .ok s)
    (h2 : cleanupLoop env (listdir s.fs) s.fs [] = .error (e, fs1, rem)) :
    run env fs0 = ⟨.failed e, fs1, s.fetched, rem⟩ := by
  unfold run
  simp only [h1, h2]

theorem run_cl_ok {env : Env} {fs0 : FS} {s : LSt} {fs1 : FS}
    {rem : List String}
    (h1 : fetchYears env (requiredYears env) ⟨[], fs0, []⟩ = .ok s)
    (h2 : cleanupLoop env (listdir s.fs) s.fs [] = .ok (fs1, rem)) :
    run env fs0 =
      (match scanLoop s.data env.now none with
        | .error e => ⟨.failed e, fs1, s.fetched, rem⟩
        | .ok r => ⟨.emitted r, fs1, s.fetched, rem⟩) := by
  unfold run
  simp only [h1, h2]

theorem fetchYears_all_has (env : Env) :
    ∀ (years : List Int) (s : LSt),
      (∀ y ∈ years, fsHas s.fs (fileName y) = true) →
      fetchedOf (fetchYears env years s) = s.fetched ∧
      fsOf (fetchYears env years s) = s.fs := by
  intro years
  induction years with
  | nil =>
    intro s _
    exact ⟨rfl, rfl⟩
  | cons y tl ih =>
    intro s hhas
    have hy : fsHas s.fs (fileName y) = true := hhas y (List.mem_cons_self _ _)
    have hpy := @processYear_has env _ _ hy
    cases hL : loadStep env (fileName y) s with
    | error p =>
      obtain ⟨e, s1⟩ := p
      rw [fetchYears_cons_error (hpy.trans hL)]
      have hs1 : s1 = s := loadStep_error hL
      rw [hs1]
      exact ⟨rfl, rfl⟩
    | ok s1 =>
      obtain ⟨hfs1, hft1⟩ := loadStep_ok hL
      rw [fetchYears_cons_ok (hpy.trans hL)]
      have := ih s1 (fun z hz => by rw [hfs1]; exact hhas z (List.mem_cons_of_mem _ hz))
      rw [this.1, this.2, hfs1, hft1]
      exact ⟨rfl, rfl⟩

theorem run_fetched (env : Env) (fs0 : FS) :
    (run env fs0).fetched =
      fetchedOf (fetchYears env (requiredYears env) ⟨[], fs0, []⟩) := by
  cases h : fetchYears env (requiredYears env) ⟨[], fs0, []⟩ with
  | error p =>
    obtain ⟨e, s⟩ := p
    rw [run_fy_error h]
    rfl
  | ok s =>
    cases h2 : cleanupLoop env (listdir s.fs) s.fs [] with
    | error q =>
      obtain ⟨e, fs1, rem⟩ := q
      rw [run_cl_error h h2]
      rfl
    | ok q =>
      obtain ⟨fs1, rem⟩ := q
      rw [run_cl_ok h h2]
      cases h3 : scanLoop s.data env.now none with
      | error e => rfl
      | ok r => rfl

/-- C4: when cache files for both required years already exist on disk, the
refresh performs zero network fetches — `_fetch_and_cache` runs only for a
year whose cache file does not exist, so the instrumented fetch list of the
run is empty. -/
theorem claim_C4 (env : Env) (fs0 : FS)
    (h1 : fsHas fs0 (fileName env.currentYear) = true)
    (h2 : fsHas fs0 (fileName (env.currentYear + 1)) = true) :
    (run env fs0).fetched = [] := by
  rw [run_fetched]
  have := fetchYears_all_has env (requiredYears env) ⟨[], fs0, []⟩ ?_
  · exact this.1
  · intro y hy
    simp only [requiredYears, List.mem_cons, List.not_mem_nil, or_false] at hy
    rcases hy with rfl | rfl
    · exact h1
    · exact h2

/-- Witness for C4 at a concrete input: with both `holidays_2025.json` and
`holidays_2026.json` present, the run fetches nothing. -/
theorem claim_C4_witness :
    fsHas fsBoth (fileName envW.currentYear) = true ∧
    fsHas fsBoth (fileName (envW.currentYear + 1)) = true ∧
    (run envW fsBoth).fetched = [] :=
  ⟨rfl, rfl, claim_C4 envW fsBoth rfl rfl⟩

/-- C3: when the run attempts the network fetch for a required year and the
fetch fails (network error, non-2xx status or undecodable body), the whole
refresh aborts with that failure: cleanup is never reached (nothing is
removed and every starting file survives), and no cache file is written
for the failing year. -/
theorem claim_C3 (env : Env) (fs0 : FS) (k : Int)
    (hf : env.fetch k = none) (hk : k ∈ (run env fs0).fetched) :
    (run env fs0).out = .failed (.fetchErr k) ∧
    (run env fs0).removed = [] ∧
    fsHas (run env fs0).fs (fileName k) = false ∧
    ∀ e ∈ fs0, e ∈ (run env fs0).fs := by
  by_cases hh1 : fsHas fs0 (fileName env.currentYear) = true
  · have hpy1 := @processYear_has env _ ⟨[], fs0, []⟩ hh1
    cases hL1 : loadStep env (fileName env.currentYear) ⟨[], fs0, []⟩ with
    | error p =>
      obtain ⟨e, s1⟩ := p
      have hfy : fetchYears env (requiredYears env) ⟨[], fs0, []⟩ = .error (e, s1) := by
        simp only [requiredYears]
        exact fetchYears_cons_error (hpy1.trans hL1)
      rw [run_fy_error hfy, loadStep_error hL1] at hk
      exact absurd hk (by simp)
    | ok s1 =>
      obtain ⟨hfs1, hft1⟩ := loadStep_ok hL1
      by_cases hh2 : fsHas s1.fs (fileName (env.currentYear + 1)) = true
      · have hpy2 := @processYear_has env _ _ hh2
        cases hL2 : loadStep env (fileName (env.currentYear + 1)) s1 with
        | error p =>
          obtain ⟨e, s2⟩ := p
          have hfy : fetchYears env (requiredYears env) ⟨[], fs0, []⟩ = .error (e, s2) := by
            simp only [requiredYears]
            rw [fetchYears_cons_ok (hpy1.trans hL1)]
            exact fetchYears_cons_error (hpy2.trans hL2)
          rw [run_fy_error hfy, loadStep_error hL2, hft1] at hk
          exact absurd hk (by simp)
        | ok s2 =>
          obtain ⟨hfs2, hft2⟩ := loadStep_ok hL2
          have hfy : fetchYears env (requiredYears env) ⟨[], fs0, []⟩ = .ok s2 := by
            simp only [requiredYears]
            rw [fetchYears_cons_ok (hpy1.trans hL1),
              fetchYears_cons_ok (hpy2.trans hL2)]
            rfl
          rw [run_fetched, hfy] at hk
          have : fetchedOf (Except.ok s2) = s2.fetched := rfl
          rw [this, hft2, hft1] at hk
          exact absurd hk (by simp)
      · rw [Bool.not_eq_true] at hh2
        cases hf2 : env.fetch (env.currentYear + 1) with
        | none =>
          have hpy2 := @processYear_miss_none env _ _ hh2 hf2
          have hfy : fetchYears env (requiredYears env) ⟨[], fs0, []⟩ =
              .error (.fetchErr (env.currentYear + 1),
                { s1 with fetched := s1.fetched ++ [env.currentYear + 1] }) := by
            simp only [requiredYears]
            rw [fetchYears_cons_ok (hpy1.trans hL1)]
            exact fetchYears_cons_error hpy2
          rw [run_fy_error hfy] at hk ⊢
          simp only [hft1, List.nil_append, List.mem_cons, List.not_mem_nil,
            or_false] at hk
          subst hk
          refine ⟨rfl, rfl, ?_, ?_⟩
          · show fsHas s1.fs (fileName (env.currentYear + 1)) = false
            exact hh2
          · intro e he
            show e ∈ s1.fs
            rw [hfs1]
            exact he
        | some p =>
          have hpy2 := @processYear_miss_some env _ _ _ hh2 hf2
          have hft : ∀ s2, loadStep env (fileName (env.currentYear + 1))
                { s1 with fs := fsWrite s1.fs (fileName (env.currentYear + 1)) (Json.render p),
                          fetched := s1.fetched ++ [env.currentYear + 1] } = .ok s2 →
              False := by
            intro s2 hL2
            obtain ⟨hfs2, hft2⟩ := loadStep_ok hL2
            have hfy : fetchYears env (requiredYears env) ⟨[], fs0, []⟩ = .ok s2 := by
              simp only [requiredYears]
              rw [fetchYears_cons_ok (hpy1.trans hL1),
                fetchYears_cons_ok (hpy2.trans hL2)]
              rfl
            rw [run_fetched, hfy] at hk
            have : fetchedOf (Except.ok s2) = s2.fetched := rfl
            rw [this, hft2] at hk
            simp only [hft1, List.nil_append, List.mem_cons, List.not_mem_nil,
              or_false] at hk
            subst hk
            rw [hf] at hf2
            exact Option.noConfusion hf2
          cases hL2 : loadStep env (fileName (env.currentYear + 1))
              { s1 with fs := fsWrite s1.fs (fileName (env.currentYear + 1)) (Json.render p),
                        fetched := s1.fetched ++ [env.currentYear + 1] } with
          | ok s2 => exact absurd hL2 (fun hh => hft s2 hh)
          | error q =>
            obtain ⟨e, s2⟩ := q
            have hfy : fetchYears env (requiredYears env) ⟨[], fs0, []⟩ = .error (e, s2) := by
              simp only [requiredYears]
              rw [fetchYears_cons_ok (hpy1.trans hL1)]
              exact fetchYears_cons_error (hpy2.trans hL2)
            rw [run_fy_error hfy, loadStep_error hL2] at hk
            simp only [hft1, List.nil_append, List.mem_cons, List.not_mem_nil,
              or_false] at hk
            subst hk
            rw [hf] at hf2
            exact Option.noConfusion hf2
  · rw [Bool.not_eq_true] at hh1
    cases hf1 : env.fetch env.currentYear with
    | none =>
      have hpy1 := @processYear_miss_none env _ ⟨[], fs0, []⟩ hh1 hf1
      have hfy : fetchYears env (requiredYears env) ⟨[], fs0, []⟩ =
          .error (.fetchErr env.currentYear, ⟨[], fs0, [env.currentYear]⟩) := by
        simp only [requiredYears]
        exact fetchYears_cons_error hpy1
      rw [run_fy_error hfy] at hk ⊢
      simp only [List.mem_cons, List.not_mem_nil, or_false] at hk
      subst hk
      exact ⟨rfl, rfl, hh1, fun e he => he⟩
    | some p =>
      have hpy1 := @processYear_miss_some env _ ⟨[], fs0, []⟩ _ hh1 hf1
      cases hL1 : loadStep env (fileName env.currentYear)
          ⟨[], fsWrite fs0 (fileName env.currentYear) (Json.render p), [env.currentYear]⟩ with
      | error q =>
        obtain ⟨e, s1⟩ := q
        have hfy : fetchYears env (requiredYears env) ⟨[], fs0, []⟩ = .error (e, s1) := by
          simp only [requiredYears]
          exact fetchYears_cons_error (hpy1.trans hL1)
        rw [run_fy_error hfy, loadStep_error hL1] at hk
        simp only [List.mem_cons, List.not_mem_nil, or_false] at hk
        subst hk
        rw [hf] at hf1
        exact Option.noConfusion hf1
      | ok s1 =>
        obtain ⟨hfs1, hft1⟩ := loadStep_ok hL1
        have hwfs0 : fsWrite fs0 (fileName env.currentYear) (Json.render p) =
            (fileName env.currentYear, Json.render p) :: fs0 := by
          rw [fsWrite, fsErase_of_not_has hh1]
        by_cases hh2 : fsHas s1.fs (fileName (env.currentYear + 1)) = true
        · cases hL2 : loadStep env (fileName (env.currentYear + 1)) s1 with
          | error q =>
            obtain ⟨e, s2⟩ := q
            have hfy : fetchYears env (requiredYears env) ⟨[], fs0, []⟩ = .error (e, s2) := by
              simp only [requiredYears]
              rw [fetchYears_cons_ok (hpy1.trans hL1)]
              exact fetchYears_cons_error ((@processYear_has env _ _ hh2).trans hL2)
            rw [run_fy_error hfy, loadStep_error hL2, hft1] at hk
            simp only [List.mem_cons, List.not_mem_nil, or_false] at hk
            subst hk
            rw [hf] at hf1
            exact Option.noConfusion hf1
          | ok s2 =>
            obtain ⟨hfs2, hft2⟩ := loadStep_ok hL2
            have hfy : fetchYears env (requiredYears env) ⟨[], fs0, []⟩ = .ok s2 := by
              simp only [requiredYears]
              rw [fetchYears_cons_ok (hpy1.trans hL1),
                fetchYears_cons_ok ((@processYear_has env _ _ hh2).trans hL2)]
              rfl
            rw [run_fetched, hfy] at hk
            have : fetchedOf (Except.ok s2) = s2.fetched := rfl
            rw [this, hft2, hft1] at hk
            simp only [List.mem_cons, List.not_mem_nil, or_false] at hk
            subst hk
            rw [hf] at hf1
            exact Option.noConfusion hf1
        · rw [Bool.not_eq_true] at hh2
          cases hf2 : env.fetch (env.currentYear + 1) with
          | none =>
            have hpy2 := @processYear_miss_none env _ _ hh2 hf2
            have hfy : fetchYears env (requiredYears env) ⟨[], fs0, []⟩ =
                .error (.fetchErr (env.currentYear + 1),
                  { s1 with fetched := s1.fetched ++ [env.currentYear + 1] }) := by
              simp only [requiredYears]
              rw [fetchYears_cons_ok (hpy1.trans hL1)]
              exact fetchYears_cons_error hpy2
            rw [run_fy_error hfy] at hk ⊢
            simp only [hft1, List.singleton_append, List.mem_cons, List.not_mem_nil, or_false] at hk
            rcases hk with rfl | rfl
            · rw [hf] at hf1
              exact Option.noConfusion hf1
            · refine ⟨rfl, rfl, ?_, ?_⟩
              · show fsHas s1.fs (fileName (env.currentYear + 1)) = false
                exact hh2
              · intro e he
                show e ∈ s1.fs
                rw [hfs1]
                show e ∈ fsWrite fs0 (fileName env.currentYear) (Json.render p)
                rw [hwfs0]
                exact List.mem_cons_of_mem _ he
          | some q =>
            have hpy2 := @processYear_miss_some env _ _ _ hh2 hf2
            have hkk : k = env.currentYear ∨ k = env.currentYear + 1 := by
              cases hL2 : loadStep env (fileName (env.currentYear + 1))
                  { s1 with fs := fsWrite s1.fs (fileName (env.currentYear + 1)) (Json.render q),
                            fetched := s1.fetched ++ [env.currentYear + 1] } with
              | error r =>
                obtain ⟨e, s2⟩ := r
                have hfy : fetchYears env (requiredYears env) ⟨[], fs0, []⟩ = .error (e, s2) := by
                  simp only [requiredYears]
                  rw [fetchYears_cons_ok (hpy1.trans hL1)]
                  exact fetchYears_cons_error (hpy2.trans hL2)
                rw [run_fy_error hfy, loadStep_error hL2] at hk
                simp only [hft1, List.singleton_append, List.mem_cons, List.not_mem_nil, or_false] at hk
                exact hk
              | ok s2 =>
                obtain ⟨hfs2, hft2⟩ := loadStep_ok hL2
                have hfy : fetchYears env (requiredYears env) ⟨[], fs0, []⟩ = .ok s2 := by
                  simp only [requiredYears]
                  rw [fetchYears_cons_ok (hpy1.trans hL1),
                    fetchYears_cons_ok (hpy2.trans hL2)]
                  rfl
                rw [run_fetched, hfy] at hk
                have : fetchedOf (Except.ok s2) = s2.fetched := rfl
                rw [this, hft2] at hk
                simp only [hft1, List.singleton_append, List.mem_cons, List.not_mem_nil, or_false] at hk
                exact hk
            rcases hkk with rfl | rfl
            · rw [hf] at hf1
              exact Option.noConfusion hf1
            · rw [hf] at hf2
              exact Option.noConfusion hf2

/-- Witness for C3 at a concrete input: with the network down and an empty
cache, the refresh reports a fetch failure for 2025, removes nothing,
writes nothing, and keeps the (empty) directory intact. -/
theorem claim_C3_witness :
    envDown.fetch 2025 = none ∧ 2025 ∈ (run envDown []).fetched ∧
    (run envDown []).out = .failed (.fetchErr 2025) ∧
    (run envDown []).removed = [] ∧
    fsHas (run envDown []).fs (fileName 2025) = false := by
  have hk : 2025 ∈ (run envDown []).fetched := by
    rw [show (run envDown []).fetched = [2025] from rfl]
    exact List.mem_cons_self _ _
  have h := claim_C3 envDown [] 2025 rfl hk
  exact ⟨rfl, hk, h.1, h.2.1, h.2.2.1⟩

theorem contains_eq_true_of_mem {l : List Int} {a : Int} (h : a ∈ l) :
    l.contains a = true :=
  List.elem_iff.2 h

theorem mem_of_contains_eq_true {l : List Int} {a : Int}
    (h : l.contains a = true) : a ∈ l :=
  List.elem_iff.1 h

/-- C1: whenever a refresh reaches the emit step, the cache file names that
exactly match `holidays_<4-digit-year>.json` cover precisely the two
required years: a file exists for each required year and every exactly
matching file on disk names a required year. -/
theorem claim_C1 (env : Env) (fs0 : FS) (r : Option Nearest)
    (hn : (listdir fs0).Nodup)
    (hy1 : 1000 ≤ env.currentYear) (hy2 : env.currentYear + 1 ≤ 9999)
    (hr : (run env fs0).out = .emitted r) :
    (∀ y ∈ requiredYears env, fsHas (run env fs0).fs (fileName y) = true) ∧
    (∀ nm ∈ listdir (run env fs0).fs, ∀ y : Int,
      exactCacheName nm = some y → y ∈ requiredYears env) := by
  cases hfy : fetchYears env (requiredYears env) ⟨[], fs0, []⟩ with
  | error p =>
    obtain ⟨e, s⟩ := p
    rw [run_fy_error hfy] at hr
    exact ROut.noConfusion hr
  | ok s =>
    obtain ⟨g1, g2, g3⟩ := fetchYears_ok env _ _ _ hfy
    have hns : (listdir s.fs).Nodup := g3 hn
    cases hcl : cleanupLoop env (listdir s.fs) s.fs [] with
    | error q =>
      obtain ⟨e, fs1, rem⟩ := q
      rw [run_cl_error hfy hcl] at hr
      exact ROut.noConfusion hr
    | ok q =>
      obtain ⟨fs1, rem⟩ := q
      have hrun : (run env fs0).fs = fs1 := by
        rw [run_cl_ok hfy hcl]
        cases hsc : scanLoop s.data env.now none with
        | error e => rfl
        | ok rr => rfl
      have hmem := cleanupLoop_ok_mem env (listdir s.fs) s.fs [] fs1 rem hns hcl
      constructor
      · intro y hy
        rw [hrun]
        have hhas : fsHas s.fs (fileName y) = true := g2 y hy
        obtain ⟨v, hv⟩ := fsHas_iff_exists_mem.1 hhas
        have hy4 : 1000 ≤ y ∧ y ≤ 9999 := by
          simp only [requiredYears, List.mem_cons, List.not_mem_nil, or_false] at hy
          rcases hy with rfl | rfl <;> omega
        have hst : staleTarget env (fileName y) = false := by
          rw [staleTarget_of_some (cacheNameYear_fileName hy4.1 hy4.2),
            contains_eq_true_of_mem hy]
          rfl
        have hin : (fileName y, v) ∈ fs1 := (hmem _).2 ⟨hv, by
          intro hc
          rw [hst] at hc
          exact absurd hc.2 (by simp)⟩
        exact fsHas_iff_exists_mem.2 ⟨v, hin⟩
      · intro nm hnm y hexact
        rw [hrun] at hnm
        obtain ⟨e, he, hnm1⟩ := List.mem_map.1 hnm
        have hes := (hmem e).1 he
        have hmm : e.1 ∈ listdir s.fs := List.mem_map_of_mem Prod.fst hes.1
        have hnst : staleTarget env e.1 = false := by
          by_cases hs : staleTarget env e.1 = true
          · exact absurd ⟨hmm, hs⟩ hes.2
          · simpa using hs
        have hcy : cacheNameYear e.1 = some y :=
          cacheNameYear_of_exact (hnm1 ▸ hexact)
        rw [staleTarget_of_some hcy] at hnst
        have : (requiredYears env).contains y = true := by
          cases hc : (requiredYears env).contains y
          · rw [hc] at hnst
            exact absurd hnst (by simp)
          · rfl
        exact mem_of_contains_eq_true this

set_option maxRecDepth 100000 in
/-- Witness for C1 at a concrete input: starting from a cache holding only
two stale files, the run completes and the directory ends up with exactly
the files for 2025 and 2026. -/
theorem claim_C1_witness :
    (listdir [("holidays_1999.json", "x"), ("junk.txt", "x")]).Nodup ∧
    (run envW [("holidays_1999.json", "x"), ("junk.txt", "x")]).out =
      .emitted (some nearestW) ∧
    (∀ y ∈ requiredYears envW,
      fsHas (run envW [("holidays_1999.json", "x"), ("junk.txt", "x")]).fs
        (fileName y) = true) ∧
    (∀ nm ∈ listdir (run envW [("holidays_1999.json", "x"), ("junk.txt", "x")]).fs,
      ∀ y : Int, exactCacheName nm = some y → y ∈ requiredYears envW) := by
  have h := claim_C1 envW [("holidays_1999.json", "x"), ("junk.txt", "x")]
    (some nearestW) (by decide) (by decide) (by decide) rfl
  exact ⟨by decide, rfl, h.1, h.2⟩

/-- C9: on a cleanup pass that completes, every file whose name merely
begins with `holidays_<4-digit-year>.json` for a year outside the required
set is deleted (the regex is matched as a prefix via `re.match`), while a
file whose name does not start with the pattern is never touched; in
particular `holidays_1999.json.bak` matches the pattern with year 1999
even though it is not an exact `holidays_<year>.json` name. -/
theorem claim_C9 (env : Env) (fs fs1 : FS) (rem : List String)
    (hn : (listdir fs).Nodup)
    (hcl : cleanupLoop env (listdir fs) fs [] = .ok (fs1, rem)) :
    (∀ e : String × String, e ∈ fs → cacheNameYear e.1 = none → e ∈ fs1) ∧
    (∀ e : String × String, e ∈ fs → ∀ y, cacheNameYear e.1 = some y →
      y ∉ requiredYears env → e ∉ fs1) ∧
    cacheNameYear "holidays_1999.json.bak" = some 1999 ∧
    exactCacheName "holidays_1999.json.bak" = none := by
  have hmem := cleanupLoop_ok_mem env (listdir fs) fs [] fs1 rem hn hcl
  refine ⟨?_, ?_, rfl, rfl⟩
  · intro e he hcy
    refine (hmem e).2 ⟨he, ?_⟩
    intro hc
    rw [staleTarget_of_none hcy] at hc
    exact absurd hc.2 (by simp)
  · intro e he y hcy hy hin
    have hes := (hmem e).1 hin
    refine hes.2 ⟨List.mem_map_of_mem Prod.fst he, ?_⟩
    rw [staleTarget_of_some hcy]
    cases hc : (requiredYears env).contains y
    · rfl
    · exact absurd (mem_of_contains_eq_true hc) hy

set_option maxRecDepth 100000 in
/-- Witness for C9 at a concrete input: cleaning a directory with one
prefix-matching stale name, one required-year file and one unrelated file
removes exactly the stale one. -/
theorem claim_C9_witness :
    ("notes.txt", "z") ∈ ([(fileName 2025, "y"), ("notes.txt", "z")] : FS) ∧
    ("holidays_1999.json.bak", "x") ∉
      ([(fileName 2025, "y"), ("notes.txt", "z")] : FS) := by
  have hcl : cleanupLoop envW
      (listdir [("holidays_1999.json.bak", "x"), (fileName 2025, "y"), ("notes.txt", "z")])
      [("holidays_1999.json.bak", "x"), (fileName 2025, "y"), ("notes.txt", "z")] [] =
      .ok ([(fileName 2025, "y"), ("notes.txt", "z")], ["holidays_1999.json.bak"]) := rfl
  have h := claim_C9 envW
    [("holidays_1999.json.bak", "x"), (fileName 2025, "y"), ("notes.txt", "z")]
    [(fileName 2025, "y"), ("notes.txt", "z")] ["holidays_1999.json.bak"]
    (by decide) hcl
  refine ⟨h.1 ("notes.txt", "z") (by decide) (by decide), ?_⟩
  exact h.2.1 ("holidays_1999.json.bak", "x") (by decide) 1999 (by decide)
    (by decide)

set_option maxRecDepth 1000000 in
/-- Counterexample to C7 as stated: with two stale files on disk and
`os.remove` failing on the first of them, the refresh does not tolerate
the failure — it aborts with the `OSError`, the second stale file is not
deleted, and nothing at all is removed. -/
theorem claim_C7_counterexample :
    envRF.removeFails "holidays_1999.json" = true ∧
    staleTarget envRF "holidays_1900.json" = true ∧
    (run envRF fsRF).out = .failed (.removeErr "holidays_1999.json") ∧
    fsHas (run envRF fsRF).fs "holidays_1900.json" = true ∧
    (run envRF fsRF).removed = [] :=
  ⟨rfl, rfl, rfl, rfl, rfl⟩

/-- C7 (amended): a filesystem error while deleting a stale cache file
during cleanup is not tolerated: the refresh aborts with that `OSError`
and reports a failure; only stale files encountered earlier in directory
order were deleted, and every file not examined before the failure is
still on disk. -/
theorem claim_C7 (env : Env) (fs0 : FS) (s : LSt) (pre post : List String)
    (nm : String)
    (hfy : fetchYears env (requiredYears env) ⟨[], fs0, []⟩ = .ok s)
    (hld : listdir s.fs = pre ++ nm :: post)
    (hst : staleTarget env nm = true) (hrf : env.removeFails nm = true)
    (hpre : ∀ x ∈ pre, staleTarget env x = true → env.removeFails x = false) :
    (run env fs0).out = .failed (.removeErr nm) ∧
    (run env fs0).removed = pre.filter (fun x => staleTarget env x) ∧
    ∀ e ∈ s.fs, e.1 ∉ pre → e ∈ (run env fs0).fs := by
  obtain ⟨fs1, h1, h2⟩ := cleanupLoop_error_first env pre post s.fs [] nm hst hrf hpre
  have hcl : cleanupLoop env (listdir s.fs) s.fs [] =
      .error (.removeErr nm, fs1, pre.filter (fun x => staleTarget env x)) := by
    rw [hld]
    simpa using h1
  rw [run_cl_error hfy hcl]
  exact ⟨rfl, rfl, fun e he hne => h2 e he hne⟩

set_option maxRecDepth 1000000 in
/-- Witness for the amended C7 at a concrete input: the remove failure on
`holidays_1999.json` aborts the refresh before `holidays_1900.json` is
examined, and both required-year files plus the unexamined stale file
survive. -/
theorem claim_C7_witness :
    (run envRF fsRF).out = .failed (.removeErr "holidays_1999.json") ∧
    (run envRF fsRF).removed = [] ∧
    ∀ e ∈ fsRF, e.1 ∉ ([fileName 2025, fileName 2026] : List String) →
      e ∈ (run envRF fsRF).fs := by
  have h := claim_C7 envRF fsRF
    ⟨[mkDay "A" "2025-10-01" true, mkDay "B" "2025-09-20" false,
      mkDay "A" "2026-10-01" true, mkDay "B" "2026-09-20" false], fsRF, []⟩
    [fileName 2025, fileName 2026] ["holidays_1900.json"] "holidays_1999.json"
    rfl rfl (by decide) rfl (by decide)
  exact ⟨h.1, by rw [h.2.1]; rfl, h.2.2⟩

theorem getItem_some {ms : JsonObj} {k : String} {v : Json}
    (h : ms.lookupLast k = some v) : getItem (Json.obj ms) k = .ok v := by
  simp only [getItem, h]

theorem dateOk_elim {o : Option Json} (h : dateOk o = true) :
    ∃ ds t, o = some (Json.str ds) ∧ strptime ds = some t := by
  cases o with
  | none => simp [dateOk] at h
  | some j =>
    cases j with
    | str ds =>
      cases hst : strptime ds with
      | none => simp [dateOk, hst] at h
      | some t => exact ⟨ds, t, rfl, hst⟩
    | null => simp [dateOk] at h
    | bool b => simp [dateOk] at h
    | num n => simp [dateOk] at h
    | arr a => simp [dateOk] at h
    | obj m => simp [dateOk] at h

theorem offDayOk_elim {o : Option Json} (h : offDayOk o = true) :
    ∃ b, o = some (Json.bool b) := by
  cases o with
  | none => simp [offDayOk] at h
  | some j =>
    cases j with
    | bool b => exact ⟨b, rfl⟩
    | null => simp [offDayOk] at h
    | str s => simp [offDayOk] at h
    | num n => simp [offDayOk] at h
    | arr a => simp [offDayOk] at h
    | obj m => simp [offDayOk] at h

theorem recordWF_elim {j : Json} (h : recordWF j = true) :
    ∃ ms ds t b nm, j = Json.obj ms ∧
      ms.lookupLast "date" = some (Json.str ds) ∧ strptime ds = some t ∧
      ms.lookupLast "isOffDay" = some (Json.bool b) ∧
      ms.lookupLast "name" = some nm := by
  cases j with
  | obj ms =>
    simp only [recordWF, Bool.and_eq_true] at h
    obtain ⟨⟨h1, h2⟩, h3⟩ := h
    obtain ⟨ds, t, hds, hst⟩ := dateOk_elim h1
    obtain ⟨b, hb⟩ := offDayOk_elim h2
    obtain ⟨nm, hnm⟩ := Option.isSome_iff_exists.1 h3
    exact ⟨ms, ds, t, b, nm, rfl, hds, hst, hb, hnm⟩
  | null => simp [recordWF] at h
  | bool b => simp [recordWF] at h
  | num n => simp [recordWF] at h
  | str s => simp [recordWF] at h
  | arr a => simp [recordWF] at h

theorem scanLoop_spec (now : Int) :
    ∀ (data : List Json) (acc : Option Nearest),
      (∀ j ∈ data, recordWF j = true) →
      scanLoop data now acc = .ok ((qualRecs now data).foldl
        (fun a x => if nearestBeat a x.days_left then some x else a) acc) := by
  intro data
  induction data with
  | nil =>
    intro acc _
    simp [scanLoop, qualRecs]
  | cons day tl ih =>
    intro acc hwf
    obtain ⟨ms, ds, t, b, nm, rfl, hdate, hst, hoff, hname⟩ :=
      recordWF_elim (hwf day (List.mem_cons_self _ _))
    have htl : ∀ j ∈ tl, recordWF j = true :=
      fun j hj => hwf j (List.mem_cons_of_mem _ hj)
    by_cases hle : now ≤ t
    · cases b with
      | true =>
        have hq : qualify now (Json.obj ms) =
            some ⟨nm, ds, Int.fdiv (t - now) usPerDay⟩ := by
          unfold qualify
          simp only [getItem_some hdate, hst, getItem_some hoff,
            getItem_some hname]
          simp [hle]
        have hscan : scanLoop (Json.obj ms :: tl) now acc =
            (if nearestBeat acc (Int.fdiv (t - now) usPerDay) then
              scanLoop tl now (some ⟨nm, ds, Int.fdiv (t - now) usPerDay⟩)
            else scanLoop tl now acc) := by
          simp only [scanLoop, getItem_some hdate, asDateStr, hst]
          rw [if_pos hle]
          simp only [getItem_some hoff, pyTruthy, if_true,
            getItem_some hname]
        have hqr : qualRecs now (Json.obj ms :: tl) =
            ⟨nm, ds, Int.fdiv (t - now) usPerDay⟩ :: qualRecs now tl := by
          simp [qualRecs, List.filterMap_cons, hq]
        rw [hscan, hqr, List.foldl_cons]
        by_cases hb : nearestBeat acc (Int.fdiv (t - now) usPerDay) = true
        · rw [if_pos hb, ih _ htl]
          simp [hb]
        · rw [if_neg hb, ih _ htl]
          simp only [Bool.not_eq_true] at hb
          simp [hb]
      | false =>
        have hq : qualify now (Json.obj ms) = none := by
          unfold qualify
          simp only [getItem_some hdate, hst, getItem_some hoff,
            getItem_some hname]
          simp
        have hscan : scanLoop (Json.obj ms :: tl) now acc =
            scanLoop tl now acc := by
          simp only [scanLoop, getItem_some hdate, asDateStr, hst]
          rw [if_pos hle]
          simp only [getItem_some hoff, pyTruthy]
          simp
        have hqr : qualRecs now (Json.obj ms :: tl) = qualRecs now tl := by
          simp [qualRecs, List.filterMap_cons, hq]
        rw [hscan, hqr, ih _ htl]
    · have hq : qualify now (Json.obj ms) = none := by
        unfold qualify
        simp only [getItem_some hdate, hst, getItem_some hoff,
          getItem_some hname]
        simp [hle]
      have hscan : scanLoop (Json.obj ms :: tl) now acc =
          scanLoop tl now acc := by
        simp only [scanLoop, getItem_some hdate, asDateStr, hst]
        rw [if_neg hle]
      have hqr : qualRecs now (Json.obj ms :: tl) = qualRecs now tl := by
        simp [qualRecs, List.filterMap_cons, hq]
      rw [hscan, hqr, ih _ htl]

theorem firstMin_eq_foldl (l : List Nearest) :
    firstMin l = l.foldl
      (fun a x => if nearestBeat a x.days_left then some x else a) none := by
  unfold firstMin
  have hstep : (fun (acc : Option Nearest) (x : Nearest) =>
      match acc with
      | none => some x
      | some a => if x.days_left < a.days_left then some x else acc) =
      (fun a x => if nearestBeat a x.days_left then some x else a) := by
    funext a x
    cases a with
    | none => simp [nearestBeat]
    | some a' => simp [nearestBeat]
  rw [hstep]

theorem foldlMin_spec :
    ∀ (l : List Nearest) (acc : Option Nearest) (r : Nearest),
      l.foldl (fun a x => if nearestBeat a x.days_left then some x else a) acc =
        some r →
      (acc = some r ∨ r ∈ l) ∧
      (∀ a, acc = some a → r.days_left ≤ a.days_left) ∧
      (∀ x ∈ l, r.days_left ≤ x.days_left) := by
  intro l
  induction l with
  | nil =>
    intro acc r h
    simp only [List.foldl_nil] at h
    refine ⟨Or.inl h, ?_, by simp⟩
    intro a ha
    rw [h] at ha
    injection ha with hh
    rw [hh]
  | cons x tl ih =>
    intro acc r h
    rw [List.foldl_cons] at h
    obtain ⟨m1, m2, m3⟩ := ih _ r h
    by_cases hb : nearestBeat acc x.days_left = true
    · rw [if_pos hb] at m1 m2
      have hrx : r.days_left ≤ x.days_left := m2 x rfl
      refine ⟨?_, ?_, ?_⟩
      · rcases m1 with h1 | h1
        · injection h1 with hh
          exact Or.inr (hh ▸ List.mem_cons_self _ _)
        · exact Or.inr (List.mem_cons_of_mem _ h1)
      · intro a ha
        have hlt : x.days_left < a.days_left := by
          rw [ha] at hb
          simpa [nearestBeat] using hb
        exact le_trans hrx (le_of_lt hlt)
      · intro z hz
        rcases List.mem_cons.1 hz with rfl | hz
        · exact hrx
        · exact m3 z hz
    · rw [if_neg hb] at m1 m2
      refine ⟨?_, fun a ha => m2 a ha, ?_⟩
      · rcases m1 with h1 | h1
        · exact Or.inl h1
        · exact Or.inr (List.mem_cons_of_mem _ h1)
      · intro z hz
        rcases List.mem_cons.1 hz with rfl | hz
        · cases acc with
          | none => exact absurd rfl hb
          | some a =>
            have hax : a.days_left ≤ z.days_left := by
              have hnlt : ¬ (z.days_left < a.days_left) := by
                intro hlt
                exact hb (by simp [nearestBeat, hlt])
              omega
            exact le_trans (m2 a rfl) hax
        · exact m3 z hz

/-- C2: over a working set of well-shaped records, the scan considers
exactly the records with `date >= now` and `isOffDay == true`, computes
`days_left` as the whole-day floor of `date - now`, and emits the
qualifying record with the minimum `days_left` (first-seen wins ties since
the comparison is strict `<`); when no record qualifies the scan succeeds
with the empty result rather than a failure. -/
theorem claim_C2 (data : List Json) (now : Int)
    (hwf : ∀ j ∈ data, recordWF j = true) :
    scanLoop data now none = .ok (firstMin (qualRecs now data)) ∧
    (qualRecs now data = [] → scanLoop data now none = .ok none) ∧
    (∀ r, firstMin (qualRecs now data) = some r →
      r ∈ qualRecs now data ∧
      ∀ x ∈ qualRecs now data, r.days_left ≤ x.days_left) := by
  have h1 : scanLoop data now none = .ok (firstMin (qualRecs now data)) := by
    rw [firstMin_eq_foldl]
    exact scanLoop_spec now data none hwf
  refine ⟨h1, ?_, ?_⟩
  · intro hq
    rw [h1, hq]
    rfl
  · intro r hr
    rw [firstMin_eq_foldl] at hr
    obtain ⟨m1, m2, m3⟩ := foldlMin_spec _ none r hr
    rcases m1 with h | h
    · exact absurd h (by simp)
    · exact ⟨h, m3⟩

set_option maxRecDepth 100000 in
/-- Witness for C2 at a concrete input: over the two-record working set
`dataW` at midnight of 2025-09-25, the scan returns the spec-side selection,
which is the off-day `A` six days ahead. -/
theorem claim_C2_witness :
    scanLoop dataW (daysFromCivil 2025 9 25 * usPerDay) none =
      .ok (firstMin (qualRecs (daysFromCivil 2025 9 25 * usPerDay) dataW)) ∧
    firstMin (qualRecs (daysFromCivil 2025 9 25 * usPerDay) dataW) =
      some ⟨Json.str "A", "2025-10-01", 6⟩ := by
  have h := claim_C2 dataW (daysFromCivil 2025 9 25 * usPerDay) (by decide)
  exact ⟨h.1, rfl⟩

theorem scanLoop_nonneg :
    ∀ (data : List Json) (now : Int) (acc : Option Nearest) (r : Nearest),
      (∀ a, acc = some a → 0 ≤ a.days_left) →
      scanLoop data now acc = .ok (some r) → 0 ≤ r.days_left := by
  intro data
  induction data with
  | nil =>
    intro now acc r hacc h
    simp only [scanLoop, Except.ok.injEq] at h
    exact hacc r h
  | cons day tl ih =>
    intro now acc r hacc h
    rw [scanLoop] at h
    cases hg1 : getItem day "date" with
    | error e =>
      simp only [hg1] at h
      exact Except.noConfusion h
    | ok dv =>
      simp only [hg1] at h
      cases hg3 : asDateStr dv with
      | error e =>
        simp only [hg3] at h
        exact Except.noConfusion h
      | ok ds =>
        simp only [hg3] at h
        cases hg3 : strptime ds with
        | none =>
          simp only [hg3] at h
          exact Except.noConfusion h
        | some t =>
          simp only [hg3] at h
          by_cases hle : now ≤ t
          · rw [if_pos hle] at h
            cases hg4 : getItem day "isOffDay" with
            | error e =>
              simp only [hg4] at h
              exact Except.noConfusion h
            | ok off =>
              simp only [hg4] at h
              by_cases htr : pyTruthy off = true
              · rw [if_pos htr] at h
                by_cases hb : nearestBeat acc (Int.fdiv (t - now) usPerDay) = true
                · rw [if_pos hb] at h
                  cases hg5 : getItem day "name" with
                  | error e =>
                    simp only [hg5] at h
                    exact Except.noConfusion h
                  | ok nm =>
                    simp only [hg5] at h
                    refine ih now _ r ?_ h
                    intro a ha
                    injection ha with hh
                    rw [← hh]
                    exact Int.fdiv_nonneg (by omega) (by norm_num [usPerDay])
                · rw [if_neg hb] at h
                  exact ih now acc r hacc h
              · rw [if_neg htr] at h
                exact ih now acc r hacc h
          · rw [if_neg hle] at h
            exact ih now acc r hacc h

/-- C8: whenever a refresh emits a non-empty result, the emitted record's
`days_left` is non-negative — the filter `date >= now` makes the timedelta
non-negative, so its whole-day floor is at least zero. -/
theorem claim_C8 (env : Env) (fs0 : FS) (r : Nearest)
    (h : (run env fs0).out = .emitted (some r)) : 0 ≤ r.days_left := by
  cases hfy : fetchYears env (requiredYears env) ⟨[], fs0, []⟩ with
  | error p =>
    obtain ⟨e, s⟩ := p
    rw [run_fy_error hfy] at h
    exact ROut.noConfusion h
  | ok s =>
    cases hcl : cleanupLoop env (listdir s.fs) s.fs [] with
    | error q =>
      obtain ⟨e, fs1, rem⟩ := q
      rw [run_cl_error hfy hcl] at h
      exact ROut.noConfusion h
    | ok q =>
      obtain ⟨fs1, rem⟩ := q
      rw [run_cl_ok hfy hcl] at h
      cases hsc : scanLoop s.data env.now none with
      | error e =>
        rw [hsc] at h
        exact ROut.noConfusion h
      | ok rr =>
        rw [hsc] at h
        have hrr : rr = some r := by
          have : ROut.emitted rr = ROut.emitted (some r) := h
          injection this
        rw [hrr] at hsc
        exact scanLoop_nonneg s.data env.now none r (by simp) hsc

set_option maxRecDepth 1000000 in
/-- Witness for C8 at a concrete input: the run over an empty cache with
the network up emits the off-day six days ahead, and six is non-negative. -/
theorem claim_C8_witness :
    (run envW []).out = .emitted (some nearestW) ∧ 0 ≤ nearestW.days_left :=
  ⟨rfl, claim_C8 envW [] nearestW rfl⟩

theorem strptime_mul {s : String} {t : Int} (h : strptime s = some t) :
    ∃ k : Int, t = k * usPerDay := by
  unfold strptime at h
  rcases hsd : s.data with _ | ⟨y1, _ | ⟨y2, _ | ⟨y3, _ | ⟨y4, _ | ⟨c5, r⟩⟩⟩⟩⟩ <;>
    simp only [hsd] at h
  case cons.cons.cons.cons.cons =>
    repeat' split at h
    all_goals first
      | exact Option.noConfusion h
      | (injection h with hh; exact ⟨_, hh.symm⟩)
  all_goals exact Option.noConfusion h

/-- C10: a record dated on the current calendar day is excluded from the
scan whenever the current time is past midnight: the record's date string
parses to the midnight instant of that day (a multiple of `usPerDay`), the
filter requires `date >= now` against the full current timestamp, so with
`t < now` the record is skipped, and at exactly `now = t` (00:00:00) an
off-day record does qualify, with `days_left = 0`. -/
theorem claim_C10 (rest : List Json) (acc : Option Nearest) (ms : JsonObj)
    (ds : String) (t now : Int)
    (hdate : ms.lookupLast "date" = some (Json.str ds))
    (hparse : strptime ds = some t) :
    usPerDay ∣ t ∧
    (t < now → now < t + usPerDay →
      scanLoop (Json.obj ms :: rest) now acc = scanLoop rest now acc) ∧
    (∀ b nm, ms.lookupLast "isOffDay" = some (Json.bool b) →
      ms.lookupLast "name" = some nm →
      scanLoop (Json.obj ms :: rest) t acc =
        (if b then
          (if nearestBeat acc 0 then scanLoop rest t (some ⟨nm, ds, 0⟩)
           else scanLoop rest t acc)
        else scanLoop rest t acc)) := by
  refine ⟨?_, ?_, ?_⟩
  · obtain ⟨k, hk⟩ := strptime_mul hparse
    exact ⟨k, by rw [hk, mul_comm]⟩
  · intro hlt _
    simp only [scanLoop, getItem_some hdate, asDateStr, hparse]
    rw [if_neg (by omega)]
  · intro b nm hoff hname
    simp only [scanLoop, getItem_some hdate, asDateStr, hparse]
    rw [if_pos (le_refl t)]
    simp only [getItem_some hoff, pyTruthy, getItem_some hname]
    cases b with
    | true => simp [sub_self, Int.zero_fdiv]
    | false => simp

set_option maxRecDepth 100000 in
/-- Witness for C10 at a concrete input: the off-day record dated
2025-10-01 parses to that day's midnight, is skipped one microsecond past
midnight, and qualifies with `days_left = 0` at exactly midnight. -/
theorem claim_C10_witness :
    usPerDay ∣ daysFromCivil 2025 10 1 * usPerDay ∧
    scanLoop [Json.obj (.cons "name" (Json.str "A")
        (.cons "date" (Json.str "2025-10-01")
          (.cons "isOffDay" (Json.bool true) .nil)))]
      (daysFromCivil 2025 10 1 * usPerDay + 1) none = .ok none ∧
    scanLoop [Json.obj (.cons "name" (Json.str "A")
        (.cons "date" (Json.str "2025-10-01")
          (.cons "isOffDay" (Json.bool true) .nil)))]
      (daysFromCivil 2025 10 1 * usPerDay) none =
      .ok (some ⟨Json.str "A", "2025-10-01", 0⟩) := by
  have h := claim_C10 [] none
    (.cons "name" (Json.str "A") (.cons "date" (Json.str "2025-10-01")
      (.cons "isOffDay" (Json.bool true) .nil)))
    "2025-10-01" (daysFromCivil 2025 10 1 * usPerDay)
    (daysFromCivil 2025 10 1 * usPerDay + 1) rfl rfl
  refine ⟨h.1, ?_, ?_⟩
  · rw [h.2.1 (by omega) (by norm_num [usPerDay])]
    rfl
  · rw [h.2.2 true (Json.str "A") rfl rfl]
    rfl

theorem loadCache_of_corrupt {c : Option String}
    (hc : corruptContent c = true) : loadCache c = Json.arr .nil := by
  cases c with
  | none => rfl
  | some str =>
    unfold corruptContent at hc
    unfold loadCache
    cases hp : Json.parse str with
    | none => simp only [hp]
    | some j =>
      simp only [hp] at hc ⊢
      cases j with
      | obj ms =>
        cases hl : ms.lookupLast "days" with
        | none => simp only [hl]
        | some v =>
          simp only [hl] at hc
          exact Bool.noConfusion hc
      | null => rfl
      | bool b => rfl
      | num n => rfl
      | str s2 => rfl
      | arr a => rfl

/-- C5 (amended): for a required year whose existing cache file is
unreadable, holds undecodable JSON, is not a JSON object, or is an object
without a `days` key, `_load_cache` yields zero records and the per-year
step of the refresh completes as a no-op on the loop state instead of
failing (the error is only logged).  A readable object whose `days` value
is present but not extendable (for example a number) instead raises a
`TypeError` out of `data += ...` and fails the refresh. -/
theorem claim_C5 (env : Env) (y : Int) (s : LSt)
    (hex : fsHas s.fs (fileName y) = true)
    (hc : corruptContent (readContent env s.fs (fileName y)) = true) :
    loadCache (readContent env s.fs (fileName y)) = Json.arr .nil ∧
    processYear env y s = .ok s := by
  refine ⟨loadCache_of_corrupt hc, ?_⟩
  rw [processYear_has hex]
  unfold loadStep
  rw [loadCache_of_corrupt hc]
  have hpe : pyExtend s.data (Json.arr .nil) = .ok s.data := by
    simp [pyExtend, JsonArr.toList]
  rw [hpe]

set_option maxRecDepth 100000 in
/-- Witness for the amended C5 at a concrete input: a cache file holding
the bytes `notjson` loads as zero records and its per-year step leaves the
loop state untouched. -/
theorem claim_C5_witness :
    loadCache (readContent envW [(fileName 2025, "notjson")]
      (fileName 2025)) = Json.arr .nil ∧
    processYear envW 2025 ⟨[], [(fileName 2025, "notjson")], []⟩ =
      .ok ⟨[], [(fileName 2025, "notjson")], []⟩ :=
  claim_C5 envW 2025 ⟨[], [(fileName 2025, "notjson")], []⟩ rfl rfl

set_option maxRecDepth 1000000 in
/-- Counterexample to C5 as stated: a readable cache file whose content is
the valid JSON object with `days` bound to the number `5` lacks the
expected shape, yet loading it yields the number rather than zero records,
and the refresh then fails with a `TypeError` from `data += 5` instead of
continuing to completion. -/
theorem claim_C5_counterexample :
    fsHas fsBadDays (fileName envW.currentYear) = true ∧
    readContent envW fsBadDays (fileName envW.currentYear) =
      some (Json.render (Json.obj (.cons "days" (.num 5) .nil))) ∧
    Json.parse (Json.render (Json.obj (.cons "days" (.num 5) .nil))) =
      some (Json.obj (.cons "days" (.num 5) .nil)) ∧
    loadCache (readContent envW fsBadDays (fileName envW.currentYear)) =
      Json.num 5 ∧
    (run envW fsBadDays).out = .failed .typeErr :=
  ⟨rfl, rfl, rfl, rfl, rfl⟩

theorem skipWs_append_ws {ws cs : List Char}
    (h : ∀ c ∈ ws, jsonWs c = true) : skipWs (ws ++ cs) = skipWs cs := by
  induction ws with
  | nil => rfl
  | cons c tl ih =>
    have hc : jsonWs c = true := h c (List.mem_cons_self _ _)
    simp only [List.cons_append, skipWs, List.dropWhile_cons, hc, if_true]
    exact ih (fun z hz => h z (List.mem_cons_of_mem _ hz))

theorem skipWs_cons_not_ws {c : Char} {cs : List Char}
    (h : jsonWs c = false) : skipWs (c :: cs) = c :: cs := by
  simp only [skipWs, List.dropWhile_cons, h]
  simp

theorem nlIndent_ws {d : Nat} : ∀ c ∈ nlIndent d, jsonWs c = true := by
  intro c hc
  rcases List.mem_cons.1 hc with rfl | hc
  · rfl
  · rw [List.eq_of_mem_replicate hc]
    rfl

theorem skipWs_nlIndent {d : Nat} {cs : List Char} :
    skipWs (nlIndent d ++ cs) = skipWs cs :=
  skipWs_append_ws nlIndent_ws

theorem natDigitsM_ne_nil_all_digits (n : Nat) :
    natDigitsM n ≠ [] ∧ ∀ c ∈ natDigitsM n, c.isDigit = true := by
  induction n using Nat.strong_induction_on with
  | _ n ih =>
    by_cases h : n < 10
    · rw [natDigitsM_lt10 h]
      refine ⟨by simp, ?_⟩
      intro c hc
      rcases List.mem_cons.1 hc with rfl | hc
      · exact isDigit_digitChar h
      · simp at hc
    · rw [natDigitsM_ge10 h]
      have hlt : n / 10 < n := Nat.div_lt_self (by omega) (by omega)
      refine ⟨by simp, ?_⟩
      intro c hc
      rcases List.mem_append.1 hc with hc | hc
      · exact (ih _ hlt).2 c hc
      · rcases List.mem_cons.1 hc with rfl | hc
        · exact isDigit_digitChar (by omega)
        · simp at hc

theorem digitsVal_append_one (l : List Char) (c : Char) :
    digitsVal (l ++ [c]) = 10 * digitsVal l + digitVal c := by
  simp [digitsVal, List.foldl_append]

theorem digitsVal_natDigitsM (n : Nat) : digitsVal (natDigitsM n) = n := by
  induction n using Nat.strong_induction_on with
  | _ n ih =>
    by_cases h : n < 10
    · rw [natDigitsM_lt10 h]
      simp [digitsVal, digitVal_digitChar h]
    · rw [natDigitsM_ge10 h, digitsVal_append_one,
        ih (n / 10) (Nat.div_lt_self (by omega) (by omega)),
        digitVal_digitChar (by omega)]
      omega

theorem jsonWs_of_digit {c : Char} (h : c.isDigit = true) : jsonWs c = false := by
  by_cases h1 : c = ' '
  · subst h1; exact absurd h (by decide)
  by_cases h2 : c = Char.ofNat 9
  · subst h2; exact absurd h (by decide)
  by_cases h3 : c = Char.ofNat 10
  · subst h3; exact absurd h (by decide)
  by_cases h4 : c = Char.ofNat 13
  · subst h4; exact absurd h (by decide)
  simp [jsonWs, h1, h2, h3, h4]

theorem digit_not_special {c : Char} (h : c.isDigit = true) :
    c ≠ lbrace ∧ c ≠ '[' ∧ c ≠ '"' ∧ c ≠ 't' ∧ c ≠ 'f' ∧ c ≠ 'n' ∧
    c ≠ '-' ∧ c ≠ ']' ∧ c ≠ ',' := by
  refine ⟨?_, ?_, ?_, ?_, ?_, ?_, ?_, ?_, ?_⟩ <;>
    (intro hc; subst hc; exact absurd h (by decide))

theorem hexVal_hexDigitChar {k : Nat} (h : k < 16) :
    hexVal (hexDigitChar k) = some k := by
  interval_cases k <;> rfl

theorem takeWhile_digits_append {ds rest : List Char}
    (hds : ∀ c ∈ ds, c.isDigit = true)
    (hrest : ∀ c cs, rest = c :: cs → c.isDigit = false) :
    (ds ++ rest).takeWhile Char.isDigit = ds ∧
    (ds ++ rest).dropWhile Char.isDigit = rest := by
  induction ds with
  | nil =>
    cases rest with
    | nil => exact ⟨rfl, rfl⟩
    | cons c cs =>
      have hc := hrest c cs rfl
      simp [List.takeWhile_cons, List.dropWhile_cons, hc]
  | cons c tl ih =>
    have hc : c.isDigit = true := hds c (List.mem_cons_self _ _)
    have h2 := ih (fun z hz => hds z (List.mem_cons_of_mem _ hz))
    constructor
    · simp only [List.cons_append, List.takeWhile_cons, hc, if_true, h2.1]
    · simp only [List.cons_append, List.dropWhile_cons, hc, if_true, h2.2]

theorem parseNatChars_digits {n : Nat} {rest : List Char}
    (hrest : ∀ c cs, rest = c :: cs → c.isDigit = false) :
    parseNatChars (natDigits n ++ rest) = some (n, rest) := by
  obtain ⟨hne, hall⟩ := natDigitsM_ne_nil_all_digits n
  rw [natDigits_eq_m] at *
  obtain ⟨htake, hdrop⟩ := takeWhile_digits_append hall hrest
  unfold parseNatChars
  rw [htake, hdrop]
  cases hd : natDigitsM n with
  | nil => exact absurd hd hne
  | cons c tl =>
    show some (digitsVal (c :: tl), rest) = some (n, rest)
    rw [← hd, digitsVal_natDigitsM]
theorem parseStrBody_escChar (c : Char) (rest : List Char) :
    parseStrBody (escChar c ++ rest) =
      (parseStrBody rest).map (fun p => (c :: p.1, p.2)) := by
  by_cases h1 : c = '"'
  · subst h1
    show parseStrBody ('\\' :: '"' :: rest) = _
    conv_lhs => unfold parseStrBody
    cases hp : parseStrBody rest with
    | none => simp [unescape, hp]
    | some p =>
      obtain ⟨sl, r⟩ := p
      simp [unescape, hp]
  by_cases h2 : c = '\\'
  · subst h2
    show parseStrBody ('\\' :: '\\' :: rest) = _
    conv_lhs => unfold parseStrBody
    cases hp : parseStrBody rest with
    | none => simp [unescape, hp]
    | some p =>
      obtain ⟨sl, r⟩ := p
      simp [unescape, hp]
  by_cases h3 : c = Char.ofNat 8
  · subst h3
    show parseStrBody ('\\' :: 'b' :: rest) = _
    conv_lhs => unfold parseStrBody
    cases hp : parseStrBody rest with
    | none => simp [unescape, hp]
    | some p =>
      obtain ⟨sl, r⟩ := p
      simp [unescape, hp]
  by_cases h4 : c = Char.ofNat 9
  · subst h4
    show parseStrBody ('\\' :: 't' :: rest) = _
    conv_lhs => unfold parseStrBody
    cases hp : parseStrBody rest with
    | none => simp [unescape, hp]
    | some p =>
      obtain ⟨sl, r⟩ := p
      simp [unescape, hp]
  by_cases h5 : c = Char.ofNat 10
  · subst h5
    show parseStrBody ('\\' :: 'n' :: rest) = _
    conv_lhs => unfold parseStrBody
    cases hp : parseStrBody rest with
    | none => simp [unescape, hp]
    | some p =>
      obtain ⟨sl, r⟩ := p
      simp [unescape, hp]
  by_cases h6 : c = Char.ofNat 12
  · subst h6
    show parseStrBody ('\\' :: 'f' :: rest) = _
    conv_lhs => unfold parseStrBody
    cases hp : parseStrBody rest with
    | none => simp [unescape, hp]
    | some p =>
      obtain ⟨sl, r⟩ := p
      simp [unescape, hp]
  by_cases h7 : c = Char.ofNat 13
  · subst h7
    show parseStrBody ('\\' :: 'r' :: rest) = _
    conv_lhs => unfold parseStrBody
    cases hp : parseStrBody rest with
    | none => simp [unescape, hp]
    | some p =>
      obtain ⟨sl, r⟩ := p
      simp [unescape, hp]
  have t1 : c.toNat ≠ 34 := fun hh => h1 (by rw [← Char.ofNat_toNat c, hh])
  have t2 : c.toNat ≠ 92 := fun hh => h2 (by rw [← Char.ofNat_toNat c, hh])
  have t3 : c.toNat ≠ 8 := fun hh => h3 (by rw [← Char.ofNat_toNat c, hh])
  have t4 : c.toNat ≠ 9 := fun hh => h4 (by rw [← Char.ofNat_toNat c, hh])
  have t5 : c.toNat ≠ 10 := fun hh => h5 (by rw [← Char.ofNat_toNat c, hh])
  have t6 : c.toNat ≠ 12 := fun hh => h6 (by rw [← Char.ofNat_toNat c, hh])
  have t7 : c.toNat ≠ 13 := fun hh => h7 (by rw [← Char.ofNat_toNat c, hh])
  by_cases h8 : c.toNat < 32
  · have hesc : escChar c = ['\\', 'u', '0', '0', hexDigitChar (c.toNat / 16),
        hexDigitChar (c.toNat % 16)] := by
      unfold escChar
      rw [if_neg t1, if_neg t2, if_neg t3, if_neg t4, if_neg t5, if_neg t6,
        if_neg t7, if_pos h8]
    rw [hesc]
    show parseStrBody ('\\' :: 'u' :: '0' :: '0' :: hexDigitChar (c.toNat / 16) ::
      hexDigitChar (c.toNat % 16) :: rest) = _
    conv_lhs => unfold parseStrBody
    have hv1 : hexVal (hexDigitChar (c.toNat / 16)) = some (c.toNat / 16) :=
      hexVal_hexDigitChar (by omega)
    have hv2 : hexVal (hexDigitChar (c.toNat % 16)) = some (c.toNat % 16) :=
      hexVal_hexDigitChar (by omega)
    have hn : 4096 * 0 + 256 * 0 + 16 * (c.toNat / 16) + c.toNat % 16 = c.toNat := by
      omega
    have h00 : hexVal '0' = some 0 := rfl
    cases hp : parseStrBody rest with
    | none =>
      simp only [h00, hv1, hv2]
      simp [hn, hp]
    | some p =>
      obtain ⟨sl, r⟩ := p
      simp only [h00, hv1, hv2]
      simp only [hp]
      simp
      constructor
      · left
        omega
      · rw [show 16 * (c.toNat / 16) + c.toNat % 16 = c.toNat from by omega]
        exact Char.ofNat_toNat c
  · have hesc : escChar c = [c] := by
      unfold escChar
      rw [if_neg t1, if_neg t2, if_neg t3, if_neg t4, if_neg t5, if_neg t6,
        if_neg t7, if_neg h8]
    rw [hesc]
    show parseStrBody (c :: rest) = _
    conv_lhs => unfold parseStrBody
    cases hp : parseStrBody rest with
    | none => simp [h1, h2, hp]
    | some p =>
      obtain ⟨sl, r⟩ := p
      simp [h1, h2, hp]

theorem parseStrBody_escList (l : List Char) (rest : List Char) :
    parseStrBody (escList l ++ '"' :: rest) = some (l, rest) := by
  induction l with
  | nil =>
    show parseStrBody ('"' :: rest) = some ([], rest)
    conv_lhs => unfold parseStrBody
    simp
  | cons c tl ih =>
    show parseStrBody ((escChar c ++ escList tl) ++ '"' :: rest) = _
    rw [List.append_assoc, parseStrBody_escChar, ih]
    rfl

theorem natDigits_head (n : Nat) :
    ∃ c cs, natDigits n = c :: cs ∧ c.isDigit = true := by
  obtain ⟨hne, hall⟩ := natDigitsM_ne_nil_all_digits n
  rw [natDigits_eq_m]
  cases hd : natDigitsM n with
  | nil => exact absurd hd hne
  | cons c cs => exact ⟨c, cs, rfl, hall c (hd ▸ List.mem_cons_self _ _)⟩

theorem renderAt_starts (v : Json) (d : Nat) :
    ∃ c cs, Json.renderAt v d = c :: cs ∧ jsonWs c = false ∧ c ≠ ']' := by
  cases v with
  | null => exact ⟨'n', _, rfl, rfl, by decide⟩
  | bool b =>
    cases b with
    | true => exact ⟨'t', _, rfl, rfl, by decide⟩
    | false => exact ⟨'f', _, rfl, rfl, by decide⟩
  | num n =>
    show ∃ c cs, intChars n = c :: cs ∧ _
    unfold intChars
    by_cases hn : n < 0
    · rw [if_pos hn]
      exact ⟨'-', _, rfl, rfl, by decide⟩
    · rw [if_neg hn]
      obtain ⟨c, cs, heq, hdig⟩ := natDigits_head n.toNat
      exact ⟨c, cs, heq, jsonWs_of_digit hdig,
        (digit_not_special hdig).2.2.2.2.2.2.2.1⟩
  | str s => exact ⟨'"', _, rfl, rfl, by decide⟩
  | arr a =>
    cases a with
    | nil => exact ⟨'[', _, rfl, rfl, by decide⟩
    | cons x tl => exact ⟨'[', _, rfl, rfl, by decide⟩
  | obj m =>
    cases m with
    | nil => exact ⟨lbrace, _, rfl, by decide, by decide⟩
    | cons k v tl => exact ⟨lbrace, _, rfl, by decide, by decide⟩

theorem renderAt_length_pos (v : Json) (d : Nat) :
    0 < (Json.renderAt v d).length := by
  obtain ⟨c, cs, heq, _, _⟩ := renderAt_starts v d
  rw [heq]
  simp

theorem arrTail_head_not_digit (a : JsonArr) (d dd : Nat) (rest : List Char) :
    ∀ c cs, JsonArr.renderTail a d ++ (nlIndent dd ++ (']' :: rest)) = c :: cs →
      c.isDigit = false := by
  intro c cs h
  cases a with
  | nil =>
    simp only [JsonArr.renderTail, List.nil_append, nlIndent,
      List.cons_append] at h
    injection h with h1 _
    rw [← h1]
    decide
  | cons x tl =>
    simp only [JsonArr.renderTail, List.cons_append] at h
    injection h with h1 _
    rw [← h1]
    decide

theorem objTail_head_not_digit (m : JsonObj) (d dd : Nat) (rest : List Char) :
    ∀ c cs, JsonObj.renderTail m d ++ (nlIndent dd ++ (rbrace :: rest)) = c :: cs →
      c.isDigit = false := by
  intro c cs h
  cases m with
  | nil =>
    simp only [JsonObj.renderTail, List.nil_append, nlIndent,
      List.cons_append] at h
    injection h with h1 _
    rw [← h1]
    decide
  | cons k v tl =>
    simp only [JsonObj.renderTail, List.cons_append] at h
    injection h with h1 _
    rw [← h1]
    decide

theorem skipWs_head_false {cs : List Char} {c : Char} {r : List Char}
    (h : skipWs cs = c :: r) : jsonWs c = false := by
  induction cs with
  | nil => exact absurd h (by simp [skipWs])
  | cons a tl ih =>
    by_cases ha : jsonWs a = true
    · rw [skipWs, List.dropWhile_cons, ha] at h
      exact ih h
    · rw [Bool.not_eq_true] at ha
      rw [skipWs_cons_not_ws ha] at h
      injection h with h1 _
      rw [← h1]
      exact ha

theorem skipWs_idem (cs : List Char) : skipWs (skipWs cs) = skipWs cs := by
  cases h : skipWs cs with
  | nil => rfl
  | cons c r => exact skipWs_cons_not_ws (skipWs_head_false h)

theorem parseVal_succ_skip (g : Nat) (cs : List Char) :
    parseVal (g + 1) cs = parseVal (g + 1) (skipWs cs) := by
  conv_lhs => unfold parseVal
  conv_rhs => unfold parseVal
  rw [skipWs_idem]

theorem parseVal_succ_ws (g : Nat) (pre cs : List Char)
    (h : ∀ c ∈ pre, jsonWs c = true) :
    parseVal (g + 1) (pre ++ cs) = parseVal (g + 1) cs := by
  rw [parseVal_succ_skip g (pre ++ cs), skipWs_append_ws h,
    ← parseVal_succ_skip]

theorem parseVal_digit {g : Nat} {c : Char} {r : List Char}
    (hdig : c.isDigit = true) :
    parseVal (g + 1) (c :: r) =
      (match parseNatChars (c :: r) with
        | some (n, rest) => some (Json.num (n : Int), rest)
        | none => none) := by
  obtain ⟨h1, h2, h3, h4, h5, h6, h7, _, _⟩ := digit_not_special hdig
  conv_lhs => unfold parseVal
  rw [skipWs_cons_not_ws (jsonWs_of_digit hdig)]
  simp only [if_neg h1, if_neg h2, if_neg h3, if_neg h4, if_neg h5, if_neg h6,
    if_neg h7, if_pos hdig]

mutual

theorem rtVal : ∀ (v : Json) (d f : Nat) (pre rest : List Char),
    (∀ c ∈ pre, jsonWs c = true) →
    2 * (pre ++ (Json.renderAt v d ++ rest)).length + 1 ≤ f →
    (∀ c cs, rest = c :: cs → c.isDigit = false) →
    parseVal f (pre ++ (Json.renderAt v d ++ rest)) = some (v, rest)
  | .null, d, f, pre, rest => by
    intro hpre hf hrest
    cases f with
    | zero => omega
    | succ g =>
      rw [parseVal_succ_ws g _ _ hpre,
        show Json.renderAt Json.null d ++ rest = 'n' :: 'u' :: 'l' :: 'l' :: rest from rfl]
      conv_lhs => unfold parseVal
      rw [skipWs_cons_not_ws (by decide)]
      rfl
  | .bool true, d, f, pre, rest => by
    intro hpre hf hrest
    cases f with
    | zero => omega
    | succ g =>
      rw [parseVal_succ_ws g _ _ hpre,
        show Json.renderAt (Json.bool true) d ++ rest = 't' :: 'r' :: 'u' :: 'e' :: rest from rfl]
      conv_lhs => unfold parseVal
      rw [skipWs_cons_not_ws (by decide)]
      rfl
  | .bool false, d, f, pre, rest => by
    intro hpre hf hrest
    cases f with
    | zero => omega
    | succ g =>
      rw [parseVal_succ_ws g _ _ hpre,
        show Json.renderAt (Json.bool false) d ++ rest = 'f' :: 'a' :: 'l' :: 's' :: 'e' :: rest from rfl]
      conv_lhs => unfold parseVal
      rw [skipWs_cons_not_ws (by decide)]
      rfl
  | .num n, d, f, pre, rest => by
    intro hpre hf hrest
    cases f with
    | zero => omega
    | succ g =>
      rw [parseVal_succ_ws g _ _ hpre]
      by_cases hn : n < 0
      · have he : Json.renderAt (Json.num n) d = '-' :: natDigits (-n).toNat := by
          show intChars n = _
          unfold intChars
          rw [if_pos hn]
        rw [he, List.cons_append]
        conv_lhs => unfold parseVal
        rw [skipWs_cons_not_ws (by decide)]
        show (match parseNatChars (natDigits (-n).toNat ++ rest) with
          | some (m, r2) => some (Json.num (-(m : Int)), r2)
          | none => none) = some (Json.num n, rest)
        simp only [parseNatChars_digits hrest]
        rw [show (-(((-n).toNat : Nat) : Int)) = n from by omega]
      · have he : Json.renderAt (Json.num n) d = natDigits n.toNat := by
          show intChars n = _
          unfold intChars
          rw [if_neg hn]
        obtain ⟨c, cs0, hcd, hdig⟩ := natDigits_head n.toNat
        rw [he, hcd, List.cons_append, parseVal_digit hdig]
        have hpn : parseNatChars (c :: (cs0 ++ rest)) = some (n.toNat, rest) := by
          rw [show c :: (cs0 ++ rest) = (c :: cs0) ++ rest from rfl, ← hcd]
          exact parseNatChars_digits hrest
        simp only [hpn]
        rw [show ((n.toNat : Nat) : Int) = n from by omega]
  | .str s, d, f, pre, rest => by
    intro hpre hf hrest
    cases f with
    | zero => omega
    | succ g =>
      rw [parseVal_succ_ws g _ _ hpre]
      have he : Json.renderAt (Json.str s) d ++ rest =
          '"' :: (escList s.data ++ ('"' :: rest)) := by
        show renderStrChars s ++ rest = _
        simp [renderStrChars]
      rw [he]
      conv_lhs => unfold parseVal
      rw [skipWs_cons_not_ws (by decide)]
      show (match parseStrBody (escList s.data ++ ('"' :: rest)) with
        | some (sl, r) => some (Json.str (String.mk sl), r)
        | none => none) = some (Json.str s, rest)
      simp only [parseStrBody_escList]
  | .arr .nil, d, f, pre, rest => by
    intro hpre hf hrest
    have hlen : (pre ++ (Json.renderAt (Json.arr .nil) d ++ rest)).length =
        pre.length + (2 + rest.length) := by
      rw [show Json.renderAt (Json.arr .nil) d = ['[', ']'] from rfl]
      simp only [List.length_append, List.length_cons, List.length_nil]
    cases f with
    | zero => omega
    | succ g =>
      rw [parseVal_succ_ws g _ _ hpre,
        show Json.renderAt (Json.arr .nil) d ++ rest = '[' :: (']' :: rest) from rfl]
      conv_lhs => unfold parseVal
      rw [skipWs_cons_not_ws (by decide)]
      show parseArrRest g (']' :: rest) = some (Json.arr .nil, rest)
      cases g with
      | zero => omega
      | succ g2 =>
        conv_lhs => unfold parseArrRest
        rw [skipWs_cons_not_ws (by decide)]
        rfl
  | .arr (.cons x tl), d, f, pre, rest => by
    intro hpre hf hrest
    have he1 : Json.renderAt (Json.arr (.cons x tl)) d ++ rest =
        '[' :: (nlIndent (d + 1) ++ (Json.renderAt x (d + 1) ++
          (JsonArr.renderTail tl (d + 1) ++ (nlIndent d ++ (']' :: rest))))) := by
      show ('[' :: (nlIndent (d + 1) ++ Json.renderAt x (d + 1) ++
        JsonArr.renderTail tl (d + 1) ++ nlIndent d ++ [']'])) ++ rest = _
      simp [List.append_assoc]
    have hlen1 := congrArg List.length he1
    simp only [List.length_append, List.length_cons] at hlen1
    simp only [List.length_append] at hf
    have hxpos := renderAt_length_pos x (d + 1)
    cases f with
    | zero => omega
    | succ g =>
      rw [parseVal_succ_ws g _ _ hpre, he1]
      conv_lhs => unfold parseVal
      rw [skipWs_cons_not_ws (by decide)]
      show parseArrRest g (nlIndent (d + 1) ++ (Json.renderAt x (d + 1) ++
        (JsonArr.renderTail tl (d + 1) ++ (nlIndent d ++ (']' :: rest))))) =
        some (Json.arr (.cons x tl), rest)
      cases g with
      | zero => omega
      | succ g2 =>
        obtain ⟨c0, cs0, hx, hxws, hxne⟩ := renderAt_starts x (d + 1)
        have hskip2 : skipWs (nlIndent (d + 1) ++ (Json.renderAt x (d + 1) ++
            (JsonArr.renderTail tl (d + 1) ++ (nlIndent d ++ (']' :: rest))))) =
            c0 :: (cs0 ++ (JsonArr.renderTail tl (d + 1) ++ (nlIndent d ++ (']' :: rest)))) := by
          rw [skipWs_nlIndent, hx, List.cons_append, skipWs_cons_not_ws hxws]
        have hcs0 := congrArg List.length hx
        simp only [List.length_cons] at hcs0
        have hval := rtVal x (d + 1) g2 (nlIndent (d + 1))
          (JsonArr.renderTail tl (d + 1) ++ (nlIndent d ++ (']' :: rest)))
          nlIndent_ws
          (by simp only [List.length_append, List.length_cons, List.length_nil] at *; omega)
          (arrTail_head_not_digit tl (d + 1) d rest)
        have htail := rtArrT tl (d + 1) d g2 rest
          (by simp only [List.length_append, List.length_cons, List.length_nil] at *; omega)
        conv_lhs => unfold parseArrRest
        rw [hskip2]
        simp only [if_neg hxne, hval, htail]
  | .obj .nil, d, f, pre, rest => by
    intro hpre hf hrest
    have hlen : (pre ++ (Json.renderAt (Json.obj .nil) d ++ rest)).length =
        pre.length + (2 + rest.length) := by
      rw [show Json.renderAt (Json.obj .nil) d = [lbrace, rbrace] from rfl]
      simp only [List.length_append, List.length_cons, List.length_nil]
    cases f with
    | zero => omega
    | succ g =>
      rw [parseVal_succ_ws g _ _ hpre,
        show Json.renderAt (Json.obj .nil) d ++ rest = lbrace :: (rbrace :: rest) from rfl]
      conv_lhs => unfold parseVal
      rw [skipWs_cons_not_ws (by decide)]
      show parseObjRest g (rbrace :: rest) = some (Json.obj .nil, rest)
      cases g with
      | zero => omega
      | succ g2 =>
        conv_lhs => unfold parseObjRest
        rw [skipWs_cons_not_ws (by decide)]
        rfl
  | .obj (.cons k v tl), d, f, pre, rest => by
    intro hpre hf hrest
    have he1 : Json.renderAt (Json.obj (.cons k v tl)) d ++ rest =
        lbrace :: (nlIndent (d + 1) ++ ('"' :: (escList k.data ++ ('"' :: (':' :: (' ' ::
          (Json.renderAt v (d + 1) ++ (JsonObj.renderTail tl (d + 1) ++
            (nlIndent d ++ (rbrace :: rest)))))))))) := by
      show (lbrace :: (nlIndent (d + 1) ++ renderStrChars k ++ [':', ' '] ++
        Json.renderAt v (d + 1) ++ JsonObj.renderTail tl (d + 1) ++
        nlIndent d ++ [rbrace])) ++ rest = _
      simp [renderStrChars, List.append_assoc]
    have hlen1 := congrArg List.length he1
    simp only [List.length_append, List.length_cons] at hlen1
    simp only [List.length_append] at hf
    have hvpos := renderAt_length_pos v (d + 1)
    cases f with
    | zero => omega
    | succ g =>
      rw [parseVal_succ_ws g _ _ hpre, he1]
      conv_lhs => unfold parseVal
      rw [skipWs_cons_not_ws (by decide)]
      show parseObjRest g (nlIndent (d + 1) ++ ('"' :: (escList k.data ++ ('"' :: (':' :: (' ' ::
        (Json.renderAt v (d + 1) ++ (JsonObj.renderTail tl (d + 1) ++
          (nlIndent d ++ (rbrace :: rest)))))))))) =
        some (Json.obj (.cons k v tl), rest)
      cases g with
      | zero => omega
      | succ g2 =>
        have hskip2 : skipWs (nlIndent (d + 1) ++ ('"' :: (escList k.data ++ ('"' :: (':' :: (' ' ::
            (Json.renderAt v (d + 1) ++ (JsonObj.renderTail tl (d + 1) ++
              (nlIndent d ++ (rbrace :: rest)))))))))) =
            '"' :: (escList k.data ++ ('"' :: (':' :: (' ' ::
              (Json.renderAt v (d + 1) ++ (JsonObj.renderTail tl (d + 1) ++
                (nlIndent d ++ (rbrace :: rest)))))))) := by
          rw [skipWs_nlIndent, skipWs_cons_not_ws (by decide)]
        have hkey : parseStrBody (escList k.data ++ ('"' :: (':' :: (' ' ::
            (Json.renderAt v (d + 1) ++ (JsonObj.renderTail tl (d + 1) ++
              (nlIndent d ++ (rbrace :: rest)))))))) =
            some (k.data, ':' :: (' ' :: (Json.renderAt v (d + 1) ++
              (JsonObj.renderTail tl (d + 1) ++ (nlIndent d ++ (rbrace :: rest)))))) :=
          parseStrBody_escList _ _
        have hcolon : skipWs (':' :: (' ' :: (Json.renderAt v (d + 1) ++
            (JsonObj.renderTail tl (d + 1) ++ (nlIndent d ++ (rbrace :: rest)))))) =
            ':' :: (' ' :: (Json.renderAt v (d + 1) ++
              (JsonObj.renderTail tl (d + 1) ++ (nlIndent d ++ (rbrace :: rest))))) :=
          skipWs_cons_not_ws (by decide)
        have hval : parseVal g2 (' ' :: (Json.renderAt v (d + 1) ++
            (JsonObj.renderTail tl (d + 1) ++ (nlIndent d ++ (rbrace :: rest))))) =
            some (v, JsonObj.renderTail tl (d + 1) ++ (nlIndent d ++ (rbrace :: rest))) :=
          rtVal v (d + 1) g2 [' ']
            (JsonObj.renderTail tl (d + 1) ++ (nlIndent d ++ (rbrace :: rest)))
            (by intro c hc; simp only [List.mem_singleton] at hc; subst hc; rfl)
            (by simp only [List.length_append, List.length_cons, List.length_nil] at *; omega)
            (objTail_head_not_digit tl (d + 1) d rest)
        have htail := rtObjT tl (d + 1) d g2 rest
          (by simp only [List.length_append, List.length_cons, List.length_nil] at *; omega)
        conv_lhs => unfold parseObjRest
        rw [hskip2]
        simp only [if_neg (show ¬ ('"' = rbrace) from by decide), if_pos rfl, hkey,
          hcolon, hval, htail]
        rfl

theorem rtArrT : ∀ (a : JsonArr) (d dd f : Nat) (rest : List Char),
    2 * (JsonArr.renderTail a d ++ (nlIndent dd ++ (']' :: rest))).length + 2 ≤ f →
    parseArrTail f (JsonArr.renderTail a d ++ (nlIndent dd ++ (']' :: rest))) =
      some (a, rest)
  | .nil, d, dd, f, rest => by
    intro hf
    cases f with
    | zero => omega
    | succ g =>
      rw [show JsonArr.renderTail JsonArr.nil d ++ (nlIndent dd ++ (']' :: rest)) =
        nlIndent dd ++ (']' :: rest) from by simp [JsonArr.renderTail]]
      conv_lhs => unfold parseArrTail
      rw [skipWs_nlIndent, skipWs_cons_not_ws (by decide)]
      rfl
  | .cons x tl, d, dd, f, rest => by
    intro hf
    have he1 : JsonArr.renderTail (JsonArr.cons x tl) d ++ (nlIndent dd ++ (']' :: rest)) =
        ',' :: (nlIndent d ++ (Json.renderAt x d ++ (JsonArr.renderTail tl d ++
          (nlIndent dd ++ (']' :: rest))))) := by
      show (',' :: (nlIndent d ++ Json.renderAt x d ++ JsonArr.renderTail tl d)) ++
        (nlIndent dd ++ (']' :: rest)) = _
      simp [List.append_assoc]
    have hlen1 := congrArg List.length he1
    simp only [List.length_append, List.length_cons] at hlen1
    simp only [List.length_append] at hf
    have hxpos := renderAt_length_pos x d
    cases f with
    | zero => omega
    | succ g =>
      rw [he1]
      conv_lhs => unfold parseArrTail
      rw [skipWs_cons_not_ws (by decide)]
      have hval := rtVal x d g (nlIndent d)
        (JsonArr.renderTail tl d ++ (nlIndent dd ++ (']' :: rest)))
        nlIndent_ws
        (by simp only [List.length_append, List.length_cons, List.length_nil] at *; omega)
        (arrTail_head_not_digit tl d dd rest)
      have htail := rtArrT tl d dd g rest
        (by simp only [List.length_append, List.length_cons, List.length_nil] at *; omega)
      show (match parseVal g (nlIndent d ++ (Json.renderAt x d ++
          (JsonArr.renderTail tl d ++ (nlIndent dd ++ (']' :: rest))))) with
        | some (v, r2) =>
          match parseArrTail g r2 with
          | some (tl2, r3) => some (JsonArr.cons v tl2, r3)
          | none => none
        | none => none) = some (JsonArr.cons x tl, rest)
      simp only [hval, htail]

theorem rtObjT : ∀ (m : JsonObj) (d dd f : Nat) (rest : List Char),
    2 * (JsonObj.renderTail m d ++ (nlIndent dd ++ (rbrace :: rest))).length + 2 ≤ f →
    parseObjTail f (JsonObj.renderTail m d ++ (nlIndent dd ++ (rbrace :: rest))) =
      some (m, rest)
  | .nil, d, dd, f, rest => by
    intro hf
    cases f with
    | zero => omega
    | succ g =>
      rw [show JsonObj.renderTail JsonObj.nil d ++ (nlIndent dd ++ (rbrace :: rest)) =
        nlIndent dd ++ (rbrace :: rest) from by simp [JsonObj.renderTail]]
      conv_lhs => unfold parseObjTail
      rw [skipWs_nlIndent, skipWs_cons_not_ws (by decide)]
      simp
  | .cons k v tl, d, dd, f, rest => by
    intro hf
    have he1 : JsonObj.renderTail (JsonObj.cons k v tl) d ++ (nlIndent dd ++ (rbrace :: rest)) =
        ',' :: (nlIndent d ++ ('"' :: (escList k.data ++ ('"' :: (':' :: (' ' ::
          (Json.renderAt v d ++ (JsonObj.renderTail tl d ++
            (nlIndent dd ++ (rbrace :: rest)))))))))) := by
      show (',' :: (nlIndent d ++ renderStrChars k ++ [':', ' '] ++
        Json.renderAt v d ++ JsonObj.renderTail tl d)) ++
        (nlIndent dd ++ (rbrace :: rest)) = _
      simp [renderStrChars, List.append_assoc]
    have hlen1 := congrArg List.length he1
    simp only [List.length_append, List.length_cons] at hlen1
    simp only [List.length_append] at hf
    have hvpos := renderAt_length_pos v d
    cases f with
    | zero => omega
    | succ g =>
      rw [he1]
      conv_lhs => unfold parseObjTail
      rw [skipWs_cons_not_ws (by decide)]
      have hskip2 : skipWs (nlIndent d ++ ('"' :: (escList k.data ++ ('"' :: (':' :: (' ' ::
          (Json.renderAt v d ++ (JsonObj.renderTail tl d ++
            (nlIndent dd ++ (rbrace :: rest)))))))))) =
          '"' :: (escList k.data ++ ('"' :: (':' :: (' ' ::
            (Json.renderAt v d ++ (JsonObj.renderTail tl d ++
              (nlIndent dd ++ (rbrace :: rest)))))))) := by
        rw [skipWs_nlIndent, skipWs_cons_not_ws (by decide)]
      have hkey : parseStrBody (escList k.data ++ ('"' :: (':' :: (' ' ::
          (Json.renderAt v d ++ (JsonObj.renderTail tl d ++
            (nlIndent dd ++ (rbrace :: rest)))))))) =
          some (k.data, ':' :: (' ' :: (Json.renderAt v d ++
            (JsonObj.renderTail tl d ++ (nlIndent dd ++ (rbrace :: rest)))))) :=
        parseStrBody_escList _ _
      have hcolon : skipWs (':' :: (' ' :: (Json.renderAt v d ++
          (JsonObj.renderTail tl d ++ (nlIndent dd ++ (rbrace :: rest)))))) =
          ':' :: (' ' :: (Json.renderAt v d ++
            (JsonObj.renderTail tl d ++ (nlIndent dd ++ (rbrace :: rest))))) :=
        skipWs_cons_not_ws (by decide)
      have hval : parseVal g (' ' :: (Json.renderAt v d ++
          (JsonObj.renderTail tl d ++ (nlIndent dd ++ (rbrace :: rest))))) =
          some (v, JsonObj.renderTail tl d ++ (nlIndent dd ++ (rbrace :: rest))) :=
        rtVal v d g [' ']
          (JsonObj.renderTail tl d ++ (nlIndent dd ++ (rbrace :: rest)))
          (by intro c hc; simp only [List.mem_singleton] at hc; subst hc; rfl)
          (by simp only [List.length_append, List.length_cons, List.length_nil] at *; omega)
          (objTail_head_not_digit tl d dd rest)
      have htail := rtObjT tl d dd g rest
        (by simp only [List.length_append, List.length_cons, List.length_nil] at *; omega)
      simp only [if_neg (show ¬ (',' = rbrace) from by decide), if_pos rfl,
        hskip2, hkey, hcolon, hval, htail]
      rfl

end

/-- Parsing back a rendered document recovers the value: the composition of
the `json.dump(..., ensure_ascii=False, indent=2)` serializer with the
`json.load` parser is the identity. -/
theorem parse_render (v : Json) : Json.parse (Json.render v) = some v := by
  have h1 : ∀ c ∈ ([] : List Char), jsonWs c = true := by
    intro c hc
    cases hc
  have h3 : ∀ (c : Char) (cs : List Char), ([] : List Char) = c :: cs → c.isDigit = false := by
    intro c cs hcc
    cases hcc
  have h := rtVal v 0 (2 * (Json.renderAt v 0).length + 2) [] [] h1
    (by simp only [List.nil_append, List.append_nil]; omega) h3
  simp only [List.nil_append, List.append_nil] at h
  show (match parseVal (2 * (Json.renderAt v 0).length + 2) (Json.renderAt v 0) with
    | some (v2, rest) => if skipWs rest = [] then some v2 else none
    | none => none) = some v
  simp only [h]
  rfl

/-- C6 (spec §8.6): writing a fetched payload to its cache file and then
loading that file yields the same `days` array that was in the original
response body, for any payload object whose `days` entry is an array and
any readable target file. -/
theorem claim_C6 (env : Env) (fs : FS) (file : String) (ms : JsonObj) (xs : JsonArr)
    (hread : env.readFails file = false)
    (hdays : ms.lookupLast "days" = some (Json.arr xs)) :
    loadCache (readContent env (fsWrite fs file (Json.render (Json.obj ms))) file) =
      Json.arr xs := by
  unfold readContent
  rw [hread]
  simp only [Bool.false_eq_true, if_false, fsLookup_fsWrite_self]
  show (match Json.parse (Json.render (Json.obj ms)) with
    | some (Json.obj ms2) =>
      match ms2.lookupLast "days" with
      | some v => v
      | none => Json.arr JsonArr.nil
    | some _ => Json.arr JsonArr.nil
    | none => Json.arr JsonArr.nil) = Json.arr xs
  rw [parse_render]
  simp only [hdays]

/-- Witness for C6: the concrete two-record payload for 2025 written to its
cache file and loaded back yields exactly its `days` array. -/
theorem claim_C6_witness :
    loadCache (readContent envW (fsWrite [] (fileName 2025)
      (Json.render (Json.obj (JsonObj.cons "days"
        (Json.arr (JsonArr.cons (mkDay "A" (intRepr 2025 ++ "-10-01") true)
          (JsonArr.cons (mkDay "B" (intRepr 2025 ++ "-09-20") false) JsonArr.nil)))
        (JsonObj.cons "year" (Json.num 2025) JsonObj.nil))))) (fileName 2025)) =
    Json.arr (JsonArr.cons (mkDay "A" (intRepr 2025 ++ "-10-01") true)
      (JsonArr.cons (mkDay "B" (intRepr 2025 ++ "-09-20") false) JsonArr.nil)) :=
  claim_C6 envW [] (fileName 2025) _ _ rfl rfl
